import Mathlib

/-!
Verification of the in-memory aggregation and derivation engine of a
personal time-tracking application (folders / modules / time entries).

The definitions below are a shallow embedding of the TypeScript source:

* `src/hooks/useTimeTracking.ts` — the derivation pipeline
  (`entriesSorted`, `modulesWithRelations`, `modulesByFolderId`,
  `buildFolderTree`, `flattenedFolders`, `folderDescendantsMap`,
  `totalTrackedHours`);
* `src/lib/services/timeTrackingService.ts` — the hour/minute
  persistence-boundary conversions;
* the `TimeTrackingProvider` context — the entity-store mutation
  operations (`addFolder` … `deleteEntry`).

Modelling conventions:

* JavaScript numbers carrying hour values are modelled as `ℚ`
  (the aggregation sums are plain additions, and the tested values are
  exactly representable);
* string ids stay `String`; JS string comparison (`<` on timestamps)
  is modelled by lexicographic comparison of the character lists;
* a JS `Map` built by repeated `set` is modelled by a lookup that
  returns the last entry with the given key;
* the recursive tree construction (which diverges on cyclic
  `parentId` chains, exactly as the source would) is modelled with an
  explicit fuel parameter; all theorems about it assume well-formed
  (acyclic, resolvable, duplicate-free) folder lists under which the
  fuel `folders.length + 1` is never exhausted;
* `async` store operations become pure state transformers taking the
  authenticated user and the remote call's outcome as parameters; the
  returned `Bool` records whether a network call was attempted.
-/

/-- `TimeFolder` record from `src/types/time.ts`. -/
structure TimeFolder where
  id : String
  name : String
  parentId : Option String
  order : Int
deriving DecidableEq, Repr

/-- `TimeModule` record from `src/types/time.ts`. -/
structure TimeModule where
  id : String
  name : String
  folderId : String
  targetHours : Option ℚ
  notes : Option String
  order : Int
deriving DecidableEq, Repr

/-- `TimeEntry` record from `src/types/time.ts`. -/
structure TimeEntry where
  id : String
  moduleId : String
  activityType : String
  description : Option String
  durationHours : ℚ
  timestamp : String
  createdAt : String
deriving DecidableEq, Repr

/-- The snapshot held by the entity store (`TimeTrackingState` in
`src/types/time.ts`). -/
structure TimeTrackingState where
  folders : List TimeFolder
  modules : List TimeModule
  entries : List TimeEntry
deriving DecidableEq, Repr

/-- `ModuleWithRelations` from `useTimeTracking.ts`: a module spread
together with its resolved folder, its filtered entries and their total. -/
structure ModuleWithRelations where
  id : String
  name : String
  folderId : String
  targetHours : Option ℚ
  notes : Option String
  order : Int
  folder : TimeFolder
  entries : List TimeEntry
  totalHours : ℚ
deriving DecidableEq, Repr

/-- `FlattenedFolder` from `useTimeTracking.ts`. -/
structure FlattenedFolder where
  id : String
  path : String
  depth : Nat
  parentId : Option String
deriving DecidableEq, Repr

/-- JS `reduce((sum, x) => sum + f(x), 0)`. -/
def sumBy {α : Type} (f : α → ℚ) (l : List α) : ℚ :=
  l.foldl (fun s x => s + f x) 0

/-- Lexicographic `<` on character lists: the model of JS string
comparison used on `timestamp` values. -/
def charListLt : List Char → List Char → Bool
  | _, [] => false
  | [], _ :: _ => true
  | a :: as, b :: bs => a < b || (a == b && charListLt as bs)

/-- JS `a < b` on strings (UTF-16 lexicographic; the code points used by
timestamps make the code-point order of Lean chars coincide with it). -/
def strLt (a b : String) : Bool := charListLt a.data b.data

/-- Sort relation of `entriesSorted`: the comparator
`(a, b) => a.timestamp > b.timestamp ? -1 : a.timestamp < b.timestamp ? 1 : 0`
lets `a` precede `b` exactly when `a.timestamp < b.timestamp` fails. -/
def entryDescTs (a b : TimeEntry) : Prop := strLt a.timestamp b.timestamp = false

instance : DecidableRel entryDescTs := fun _ _ => instDecidableEqBool _ _

/-- Sibling sort relation used by `buildFolderTree`: comparator
`(a, b) => a.order - b.order`. -/
def folderByOrder (a b : TimeFolder) : Prop := a.order ≤ b.order

instance : DecidableRel folderByOrder := fun _ _ => Int.decLe _ _

/-- Module sort relation used by `modulesByFolderId`: comparator
`(a, b) => a.order - b.order`. -/
def moduleByOrder (a b : ModuleWithRelations) : Prop := a.order ≤ b.order

instance : DecidableRel moduleByOrder := fun _ _ => Int.decLe _ _

/-- `entriesSorted`: `[...state.entries].sort(byTimestampDescending)`.
JS sort is stable; for a total preorder a stable sort's output is unique,
so the stable `insertionSort` models it exactly. -/
def entriesSorted (entries : List TimeEntry) : List TimeEntry :=
  entries.insertionSort entryDescTs

/-- `folderMap.get(k)`: the map is built by `forEach`/`set`, so a later
folder with the same id overwrites an earlier one — lookup returns the
last matching element. -/
def lookupFolder (folders : List TimeFolder) (k : String) : Option TimeFolder :=
  folders.reverse.find? (fun f => f.id == k)

/-- `moduleMap.get(k)`, same last-wins semantics as `lookupFolder`. -/
def lookupModule (modules : List TimeModule) (k : String) : Option TimeModule :=
  modules.reverse.find? (fun m => m.id == k)

/-- The record built for one module inside `modulesWithRelations`:
`{...module, folder, entries, totalHours}`. -/
def joinOne (sorted : List TimeEntry) (m : TimeModule) (folder : TimeFolder) :
    ModuleWithRelations :=
  let ents := sorted.filter (fun e => e.moduleId == m.id)
  { id := m.id, name := m.name, folderId := m.folderId
    targetHours := m.targetHours, notes := m.notes, order := m.order
    folder := folder, entries := ents
    totalHours := sumBy TimeEntry.durationHours ents }

/-- `modulesWithRelations`: maps over `state.modules`; throws
`Ordner mit ID … nicht gefunden` at the first module whose `folderId`
does not resolve in `folderMap`. -/
def joinModules (folders : List TimeFolder) (sorted : List TimeEntry) :
    List TimeModule → Except String (List ModuleWithRelations)
  | [] => .ok []
  | m :: rest =>
    match lookupFolder folders m.folderId with
    | none => .error ("Ordner mit ID " ++ m.folderId ++ " nicht gefunden")
    | some folder =>
      match joinModules folders sorted rest with
      | .error msg => .error msg
      | .ok tail => .ok (joinOne sorted m folder :: tail)

/-- `modulesByFolderId.get(fid) ?? []`: grouping preserves the
`modulesWithRelations` order, then each group is stably sorted by
`order` ascending. -/
def modulesByFolderId (ms : List ModuleWithRelations) (fid : String) :
    List ModuleWithRelations :=
  (ms.filter (fun m => m.folderId == fid)).insertionSort moduleByOrder

/-- `FolderNode` from `useTimeTracking.ts`: a folder plus children,
attached modules and the rolled-up `totalHours`. -/
inductive FolderNode where
  | node (folder : TimeFolder) (children : List FolderNode)
      (modules : List ModuleWithRelations) (totalHours : ℚ)

/-- The folder record of a node. -/
def FolderNode.folder : FolderNode → TimeFolder
  | .node f _ _ _ => f

/-- The children list of a node. -/
def FolderNode.children : FolderNode → List FolderNode
  | .node _ cs _ _ => cs

/-- The modules attached to a node. -/
def FolderNode.modules : FolderNode → List ModuleWithRelations
  | .node _ _ ms _ => ms

/-- The aggregated hours of a node. -/
def FolderNode.totalHours : FolderNode → ℚ
  | .node _ _ _ t => t

/-- The recursive `build(parentId)` of `buildFolderTree`, with an explicit
fuel bound standing in for the unbounded recursion of the source (which
does not terminate on cyclic `parentId` chains).  With acyclic, resolvable
chains the fuel `folders.length + 1` used by `buildFolderTree` is never
exhausted, so the added `fuel = 0` branch is never taken. -/
def build (fs : List TimeFolder) (mbf : String → List ModuleWithRelations) :
    Nat → Option String → List FolderNode
  | 0, _ => []
  | fuel + 1, pid =>
    ((fs.filter (fun f => f.parentId = pid)).insertionSort folderByOrder).map
      (fun f =>
        let children := build fs mbf fuel (some f.id)
        let mods := mbf f.id
        FolderNode.node f children mods
          (sumBy ModuleWithRelations.totalHours mods +
            sumBy FolderNode.totalHours children))

/-- `buildFolderTree`: `build(null)` with enough fuel for any acyclic list. -/
def buildFolderTree (fs : List TimeFolder)
    (mbf : String → List ModuleWithRelations) : List FolderNode :=
  build fs mbf (fs.length + 1) none

/-- The `traverse` of `flattenedFolders`: pre-order walk emitting
`{id, path, depth, parentId}` where `path` is
`parentPath ? parentPath + " / " + name : name` (JS truthiness: the
empty string selects the bare name). -/
def flattenTraverse : List FolderNode → String → Nat → List FlattenedFolder
  | [], _, _ => []
  | .node f cs _ _ :: rest, parentPath, depth =>
    let path := if parentPath = "" then f.name else parentPath ++ " / " ++ f.name
    { id := f.id, path := path, depth := depth, parentId := f.parentId } ::
      (flattenTraverse cs path (depth + 1) ++ flattenTraverse rest parentPath depth)

/-- `flattenedFolders`: the traversal started at the roots. -/
def flattenedFolders (roots : List FolderNode) : List FlattenedFolder :=
  flattenTraverse roots "" 0

/-- The traversal exactly as the spec words it (C5): `path` is the
parent's emitted path joined with `" / "`, and the bare name exactly at
depth 0. -/
def flattenClaim : List FolderNode → String → Nat → List FlattenedFolder
  | [], _, _ => []
  | .node f cs _ _ :: rest, parentPath, depth =>
    let path := if depth = 0 then f.name else parentPath ++ " / " ++ f.name
    { id := f.id, path := path, depth := depth, parentId := f.parentId } ::
      (flattenClaim cs path (depth + 1) ++ flattenClaim rest parentPath depth)

/-- The amended traversal: the bare name at depth 0 and also whenever the
parent's emitted path is the empty string (the source tests the
truthiness of `parentPath`, so a root named `""` propagates bare names). -/
def flattenAmended : List FolderNode → String → Nat → List FlattenedFolder
  | [], _, _ => []
  | .node f cs _ _ :: rest, parentPath, depth =>
    let path := if depth = 0 ∨ parentPath = "" then f.name
      else parentPath ++ " / " ++ f.name
    { id := f.id, path := path, depth := depth, parentId := f.parentId } ::
      (flattenAmended cs path (depth + 1) ++ flattenAmended rest parentPath depth)

/-- JS `Set.add`: appends the element unless already present. -/
def addUnique (acc : List String) (x : String) : List String :=
  if x ∈ acc then acc else acc ++ [x]

/-- Adds a list of ids into an insertion-ordered set. -/
def addAllUnique (acc : List String) : List String → List String
  | [] => acc
  | x :: xs => addAllUnique (addUnique acc x) xs

mutual

/-- `computeDescendants(node)`: the set `{node.id}` grown by the ids of
each child's descendant set, in child order. -/
def FolderNode.descSet : FolderNode → List String
  | .node f cs _ _ => addAllUnique [f.id] (descSetsConcat cs)

/-- The concatenation of the descendant sets of a list of nodes. -/
def descSetsConcat : List FolderNode → List String
  | [] => []
  | c :: rest => FolderNode.descSet c ++ descSetsConcat rest

end

/-- `folderDescendantsMap` as an association list in insertion order:
`computeDescendants` stores each child's entry before its parent's
(post-order), roots in order. -/
def descPairs : List FolderNode → List (String × List String)
  | [] => []
  | .node f cs ms t :: rest =>
    descPairs cs ++ [((FolderNode.node f cs ms t).folder.id,
      (FolderNode.node f cs ms t).descSet)] ++ descPairs rest

/-- `totalTrackedHours`: `state.entries.reduce((sum, e) => sum + e.durationHours, 0)`. -/
def totalTrackedHours (entries : List TimeEntry) : ℚ :=
  sumBy TimeEntry.durationHours entries

/-- JS `Math.round`: round half toward positive infinity. -/
def jsRound (q : ℚ) : Int := ⌊q + 1 / 2⌋

/-- `minutesToHours` from `timeTrackingService.ts`: `Math.round(minutes) / 60`. -/
def minutesToHours (minutes : ℚ) : ℚ := (jsRound minutes : ℚ) / 60

/-- `hoursToMinutes` from `timeTrackingService.ts`: `Math.round(hours * 60)`. -/
def hoursToMinutes (hours : ℚ) : Int := jsRound (hours * 60)

/-!
Entity-store mutation operations from `TimeTrackingProvider`
(`src/unnamed/part_000`).  Each `async` operation becomes a pure state
transformer over the snapshot: the authenticated user (`Option Unit`) and
the remote call's outcome (`Except String _`) are inputs, and the result
is `(outcome surfaced to the caller, new snapshot, network attempted)`.
On a missing user the operation throws its German authorization message
before any network call; on a remote failure the snapshot is untouched
and the remote error is rethrown; on success the snapshot is reconciled
exactly as the corresponding `setState` call does.
-/

/-- `addFolder`: appends the created folder to `state.folders`. -/
def Store.addFolder (user : Option Unit) (remote : Except String TimeFolder)
    (s : TimeTrackingState) : Except String TimeFolder × TimeTrackingState × Bool :=
  match user with
  | none => (.error "Bitte melde dich an, um Ordner anzulegen.", s, false)
  | some _ =>
    match remote with
    | .error msg => (.error msg, s, true)
    | .ok folder => (.ok folder, { s with folders := s.folders ++ [folder] }, true)

/-- `updateFolder`: replaces every folder whose id matches. -/
def Store.updateFolder (user : Option Unit) (id : String)
    (remote : Except String TimeFolder) (s : TimeTrackingState) :
    Except String TimeFolder × TimeTrackingState × Bool :=
  match user with
  | none => (.error "Bitte melde dich an, um Ordner zu bearbeiten.", s, false)
  | some _ =>
    match remote with
    | .error msg => (.error msg, s, true)
    | .ok updated =>
      (.ok updated,
        { s with folders := s.folders.map (fun f => if f.id = id then updated else f) },
        true)

/-- `deleteFolder`: on success the snapshot is replaced by a full
`loadState` refetch (`refreshed`). -/
def Store.deleteFolder (user : Option Unit) (remote : Except String Unit)
    (refreshed : TimeTrackingState) (s : TimeTrackingState) :
    Except String Unit × TimeTrackingState × Bool :=
  match user with
  | none => (.error "Bitte melde dich an, um Ordner zu loeschen.", s, false)
  | some _ =>
    match remote with
    | .error msg => (.error msg, s, true)
    | .ok _ => (.ok (), refreshed, true)

/-- `addModule`: appends the created module to `state.modules`. -/
def Store.addModule (user : Option Unit) (remote : Except String TimeModule)
    (s : TimeTrackingState) : Except String TimeModule × TimeTrackingState × Bool :=
  match user with
  | none => (.error "Bitte melde dich an, um Module anzulegen.", s, false)
  | some _ =>
    match remote with
    | .error msg => (.error msg, s, true)
    | .ok m => (.ok m, { s with modules := s.modules ++ [m] }, true)

/-- `updateModule`: replaces every module whose id matches. -/
def Store.updateModule (user : Option Unit) (id : String)
    (remote : Except String TimeModule) (s : TimeTrackingState) :
    Except String TimeModule × TimeTrackingState × Bool :=
  match user with
  | none => (.error "Bitte melde dich an, um Module zu bearbeiten.", s, false)
  | some _ =>
    match remote with
    | .error msg => (.error msg, s, true)
    | .ok updated =>
      (.ok updated,
        { s with modules := s.modules.map (fun m => if m.id = id then updated else m) },
        true)

/-- `deleteModule`: on success the snapshot is replaced by a refetch. -/
def Store.deleteModule (user : Option Unit) (remote : Except String Unit)
    (refreshed : TimeTrackingState) (s : TimeTrackingState) :
    Except String Unit × TimeTrackingState × Bool :=
  match user with
  | none => (.error "Bitte melde dich an, um Module zu loeschen.", s, false)
  | some _ =>
    match remote with
    | .error msg => (.error msg, s, true)
    | .ok _ => (.ok (), refreshed, true)

/-- `addEntry`: prepends the created entry to `state.entries`. -/
def Store.addEntry (user : Option Unit) (remote : Except String TimeEntry)
    (s : TimeTrackingState) : Except String TimeEntry × TimeTrackingState × Bool :=
  match user with
  | none => (.error "Bitte melde dich an, um Eintraege zu erstellen.", s, false)
  | some _ =>
    match remote with
    | .error msg => (.error msg, s, true)
    | .ok e => (.ok e, { s with entries := e :: s.entries }, true)

/-- `updateEntry`: replaces every entry whose id matches. -/
def Store.updateEntry (user : Option Unit) (id : String)
    (remote : Except String TimeEntry) (s : TimeTrackingState) :
    Except String TimeEntry × TimeTrackingState × Bool :=
  match user with
  | none => (.error "Bitte melde dich an, um Eintraege zu aktualisieren.", s, false)
  | some _ =>
    match remote with
    | .error msg => (.error msg, s, true)
    | .ok updated =>
      (.ok updated,
        { s with entries := s.entries.map (fun e => if e.id = id then updated else e) },
        true)

/-- `deleteEntry`: filters the deleted id out of `state.entries`. -/
def Store.deleteEntry (user : Option Unit) (id : String)
    (remote : Except String Unit) (s : TimeTrackingState) :
    Except String Unit × TimeTrackingState × Bool :=
  match user with
  | none => (.error "Bitte melde dich an, um Eintraege zu loeschen.", s, false)
  | some _ =>
    match remote with
    | .error msg => (.error msg, s, true)
    | .ok _ =>
      (.ok (), { s with entries := s.entries.filter (fun e => e.id != id) }, true)

/-!
Observers of the built tree used to state the claims: pre-order folder
collection (with and without depths), attached-module collection, and
the list of all nodes of a forest.
-/

/-- Pre-order list of the folders of a forest. -/
def collectF : List FolderNode → List TimeFolder
  | [] => []
  | .node f cs _ _ :: rest => f :: (collectF cs ++ collectF rest)

/-- Pre-order list of the folders of a forest paired with their depth. -/
def collectD (d : Nat) : List FolderNode → List (TimeFolder × Nat)
  | [] => []
  | .node f cs _ _ :: rest => (f, d) :: (collectD (d + 1) cs ++ collectD d rest)

/-- Pre-order concatenation of the module lists attached in a forest. -/
def collectM : List FolderNode → List ModuleWithRelations
  | [] => []
  | .node _ cs ms _ :: rest => ms ++ (collectM cs ++ collectM rest)

/-- All nodes of a forest (each root and, recursively, every descendant). -/
def allNodes : List FolderNode → List FolderNode
  | [] => []
  | .node f cs ms t :: rest =>
    FolderNode.node f cs ms t :: (allNodes cs ++ allNodes rest)

/-- Structural induction over forests (lists of `FolderNode`). -/
theorem FolderNode.inductionList {motive : List FolderNode → Prop}
    (nil : motive [])
    (cons : ∀ (f : TimeFolder) (cs : List FolderNode)
      (ms : List ModuleWithRelations) (t : ℚ) (rest : List FolderNode),
      motive cs → motive rest → motive (FolderNode.node f cs ms t :: rest)) :
    ∀ l, motive l
  | [] => nil
  | .node f cs ms t :: rest =>
    cons f cs ms t rest (FolderNode.inductionList nil cons cs)
      (FolderNode.inductionList nil cons rest)

/-!
The ancestor chain of a parent pointer: the successive `parentId` values
(ending in `none`) obtained by resolving ids through `lookupFolder`.
`upChain` returns `none` when a link does not resolve or the fuel runs
out; on a well-formed folder list the fuel `folders.length + 1` always
suffices.
-/

/-- The list of parent pointers from `p` up to a root, fuel-bounded. -/
def upChain (fs : List TimeFolder) : Nat → Option String → Option (List (Option String))
  | 0, _ => none
  | _ + 1, none => some [none]
  | fuel + 1, some x =>
    (lookupFolder fs x).bind fun g =>
      (upChain fs fuel g.parentId).map (fun L => some x :: L)

/-- Well-formed folder list: ids are duplicate-free and every folder's
`parentId` chain resolves and terminates — the precondition "acyclic
`parentId` references" of the specification. -/
def WellFormedFolders (fs : List TimeFolder) : Prop :=
  (fs.map TimeFolder.id).Nodup ∧
    ∀ f ∈ fs, (upChain fs (fs.length + 1) f.parentId).isSome

instance : ∀ fs, Decidable (WellFormedFolders fs) := fun fs =>
  @instDecidableAnd _ _ (List.nodupDecidable _) (List.decidableBAll _ fs)

instance (priority := 2000) : BEq (Option String) := instBEqOfDecidableEq

/-- The ids of a node's subtree: the node's own folder id and every
descendant folder id (the specification's "descendant set" of a node). -/
def subtreeIds (t : FolderNode) : List String :=
  (collectF [t]).map TimeFolder.id

/-- The claim-side predicate "the entry's module's folder lies in the
node's descendant set": the entry's `moduleId` resolves against the
snapshot modules, and the found module's `folderId` is a subtree id. -/
def entryInSubtree (mods : List TimeModule) (t : FolderNode) (e : TimeEntry) : Bool :=
  match lookupModule mods e.moduleId with
  | none => false
  | some m => decide (m.folderId ∈ subtreeIds t)

/-!
Concrete fixtures used by the witnesses: a small snapshot with one root
folder, one module and three entries (one of them for a foreign module).
-/

/-- Fixture folder `A` (root). -/
def exFolderA : TimeFolder := ⟨"a", "A", none, 0⟩

/-- Fixture module in folder `a`. -/
def exModuleA : TimeModule := ⟨"m1", "M1", "a", none, none, 0⟩

/-- Fixture module referencing a missing folder id. -/
def exModuleOrphan : TimeModule := ⟨"m1", "M1", "zzz", none, none, 0⟩

/-- Fixture entries, timestamps out of order, `e2` for a foreign module. -/
def exEntries : List TimeEntry :=
  [⟨"e1", "m1", "R", none, 1, "2024-03-01", "c1"⟩,
    ⟨"e2", "m2", "R", none, 2, "2024-03-02", "c2"⟩,
    ⟨"e3", "m1", "R", none, 3, "2024-03-03", "c3"⟩]

/-- Fixture folder list: `A` root with children `A1`, `A2` (spec scenario). -/
def exFolders : List TimeFolder :=
  [⟨"a", "A", none, 0⟩, ⟨"a1", "A1", some "a", 0⟩, ⟨"a2", "A2", some "a", 1⟩]

/-- Fixture folder list with a root named `""` (C5 counterexample). -/
def exFoldersEmptyName : List TimeFolder :=
  [⟨"r", "", none, 0⟩, ⟨"c", "B", some "r", 0⟩]

/-- Fixture join result for the single-folder snapshot. -/
def exRes : List ModuleWithRelations :=
  [joinOne (entriesSorted exEntries) exModuleA exFolderA]

/-- The root node that `buildFolderTree` produces for the single-folder
snapshot, with its total written as the unevaluated rolled-up sum. -/
def exNodeA : FolderNode :=
  FolderNode.node exFolderA [] (modulesByFolderId exRes "a")
    (sumBy ModuleWithRelations.totalHours (modulesByFolderId exRes "a") +
      sumBy FolderNode.totalHours [])

/-- The executable lexicographic comparison agrees with the lexicographic
order on character lists. -/
theorem charListLt_iff : ∀ x y : List Char, charListLt x y = true ↔ x < y
  | [], [] => by
    refine iff_of_false (by simp [charListLt]) ?_
    intro h
    cases h
  | [], b :: bs => iff_of_true rfl (List.Lex.nil)
  | a :: as, [] => by
    refine iff_of_false (by simp [charListLt]) ?_
    intro h
    cases h
  | a :: as, b :: bs => by
    simp only [charListLt, Bool.or_eq_true, Bool.and_eq_true, decide_eq_true_eq, beq_iff_eq]
    constructor
    · rintro (hab | ⟨rfl, hrec⟩)
      · exact List.Lex.rel hab
      · exact List.Lex.cons ((charListLt_iff as bs).mp hrec)
    · intro h
      cases h with
      | rel hab => exact Or.inl hab
      | cons hrec => exact Or.inr ⟨rfl, (charListLt_iff as bs).mpr hrec⟩

/-- The executable string comparison agrees with the lexicographic string
order. -/
theorem strLt_iff (s t : String) : strLt s t = true ↔ s < t := by
  rw [String.lt_iff_toList_lt]
  exact charListLt_iff s.data t.data

/-- The `entriesSorted` comparator lets `a` precede `b` exactly when
`b.timestamp ≤ a.timestamp`. -/
theorem entryDescTs_iff (a b : TimeEntry) :
    entryDescTs a b ↔ b.timestamp ≤ a.timestamp := by
  unfold entryDescTs
  rw [← not_lt]
  constructor
  · intro h hlt
    rw [← strLt_iff] at hlt
    rw [h] at hlt
    cases hlt
  · intro h
    cases hq : strLt a.timestamp b.timestamp with
    | false => rfl
    | true => exact absurd ((strLt_iff _ _).mp hq) h

instance : IsTotal TimeEntry entryDescTs :=
  ⟨fun a b => by
    rw [entryDescTs_iff, entryDescTs_iff]
    exact (le_total b.timestamp a.timestamp)⟩

instance : IsTrans TimeEntry entryDescTs :=
  ⟨fun a b c hab hbc => by
    rw [entryDescTs_iff] at *
    exact le_trans hbc hab⟩

instance : IsTotal TimeFolder folderByOrder := ⟨fun a b => Int.le_total a.order b.order⟩

instance : IsTrans TimeFolder folderByOrder :=
  ⟨fun _ _ _ hab hbc => Int.le_trans hab hbc⟩

instance : IsTotal ModuleWithRelations moduleByOrder :=
  ⟨fun a b => Int.le_total a.order b.order⟩

instance : IsTrans ModuleWithRelations moduleByOrder :=
  ⟨fun _ _ _ hab hbc => Int.le_trans hab hbc⟩

/-- Left fold adding mapped values, expressed through `List.sum`. -/
theorem foldl_add_eq {α : Type} (f : α → ℚ) :
    ∀ (l : List α) (a : ℚ), l.foldl (fun s x => s + f x) a = a + (l.map f).sum
  | [], a => by simp
  | x :: l, a => by
    simp only [List.foldl_cons, List.map_cons, List.sum_cons]
    rw [foldl_add_eq f l (a + f x)]
    ring

/-- `sumBy` is the sum of the mapped values. -/
theorem sumBy_eq {α : Type} (f : α → ℚ) (l : List α) : sumBy f l = (l.map f).sum := by
  unfold sumBy
  rw [foldl_add_eq]
  ring

/-- `sumBy` over an append splits. -/
theorem sumBy_append {α : Type} (f : α → ℚ) (l₁ l₂ : List α) :
    sumBy f (l₁ ++ l₂) = sumBy f l₁ + sumBy f l₂ := by
  simp [sumBy_eq]

/-- `sumBy` is invariant under permutation. -/
theorem sumBy_perm {α : Type} (f : α → ℚ) {l₁ l₂ : List α} (h : l₁.Perm l₂) :
    sumBy f l₁ = sumBy f l₂ := by
  rw [sumBy_eq, sumBy_eq]
  exact (h.map f).sum_eq

/-- `Math.round` of an integer value is that integer. -/
theorem jsRound_intCast (n : Int) : jsRound (n : ℚ) = n := by
  unfold jsRound
  rw [Int.floor_eq_iff]
  constructor
  · linarith
  · linarith

/-- C7: the persistence boundary converts `durationHours` to
`durationMinutes = round(durationHours * 60)` on write and back to
`round(durationMinutes) / 60` on read; every quarter-hour value survives
the write-then-read round trip exactly, in particular 1.25 hours persists
as 75 minutes and reads back as exactly 1.25. -/
theorem hourMinute_roundtrip_quarter :
    (∀ m : Int, minutesToHours (m : ℚ) = (m : ℚ) / 60) ∧
    (∀ k : Int, minutesToHours ((hoursToMinutes ((k : ℚ) / 4) : Int) : ℚ) = (k : ℚ) / 4) ∧
    hoursToMinutes ((125 : ℚ) / 100) = 75 ∧
    minutesToHours ((75 : Int) : ℚ) = (125 : ℚ) / 100 := by
  have hmin : ∀ m : Int, minutesToHours (m : ℚ) = (m : ℚ) / 60 := by
    intro m
    unfold minutesToHours
    rw [jsRound_intCast]
  have hq : ∀ k : Int, hoursToMinutes ((k : ℚ) / 4) = 15 * k := by
    intro k
    unfold hoursToMinutes
    have h60 : (k : ℚ) / 4 * 60 = ((15 * k : Int) : ℚ) := by
      push_cast
      ring
    rw [h60, jsRound_intCast]
  refine ⟨hmin, ?_, ?_, ?_⟩
  · intro k
    rw [hq, hmin (15 * k)]
    push_cast
    ring
  · show hoursToMinutes ((125 : ℚ) / 100) = 75
    unfold hoursToMinutes
    have h75 : (125 : ℚ) / 100 * 60 = ((75 : Int) : ℚ) := by norm_num
    rw [h75, jsRound_intCast]
  · rw [hmin 75]
    norm_num

/-!
Properties of `lookupFolder` and of ancestor chains (`upChain`).
-/

/-- A successful lookup returns an element of the list bearing the key. -/
theorem lookupFolder_some {fs : List TimeFolder} {k : String} {g : TimeFolder}
    (h : lookupFolder fs k = some g) : g ∈ fs ∧ g.id = k := by
  unfold lookupFolder at h
  have hmem := List.mem_of_find?_eq_some h
  have hp := List.find?_some h
  rw [List.mem_reverse] at hmem
  exact ⟨hmem, by simpa using hp⟩

/-- With duplicate-free ids, looking up a member's id returns it. -/
theorem lookupFolder_self {fs : List TimeFolder} (hid : (fs.map TimeFolder.id).Nodup)
    {g : TimeFolder} (hg : g ∈ fs) : lookupFolder fs g.id = some g := by
  cases hl : lookupFolder fs g.id with
  | none =>
    unfold lookupFolder at hl
    have hfail := List.find?_eq_none.mp hl g (List.mem_reverse.mpr hg)
    simp at hfail
  | some g2 =>
    rcases lookupFolder_some hl with ⟨hg2, hid2⟩
    exact congrArg some (List.inj_on_of_nodup_map hid hg2 hg hid2)

/-- Chains survive a fuel increase. -/
theorem upChain_mono {fs : List TimeFolder} :
    ∀ {N : Nat} {p : Option String} {L : List (Option String)},
      upChain fs N p = some L → upChain fs (N + 1) p = some L := by
  intro N
  induction N with
  | zero => intro p L h; cases h
  | succ n ih =>
    intro p L h
    cases p with
    | none => cases h; rfl
    | some x =>
      unfold upChain at h ⊢
      cases hl : lookupFolder fs x with
      | none => rw [hl] at h; simp at h
      | some g =>
        rw [hl, Option.some_bind] at h
        rw [Option.some_bind]
        cases ht : upChain fs n g.parentId with
        | none => rw [ht] at h; simp at h
        | some T =>
          rw [ht, Option.map_some'] at h
          rw [ih ht, Option.map_some']
          exact h

/-- Chains survive any fuel increase. -/
theorem upChain_mono_le {fs : List TimeFolder} {N M : Nat} (hNM : N ≤ M)
    {p : Option String} {L : List (Option String)}
    (h : upChain fs N p = some L) : upChain fs M p = some L := by
  induction hNM with
  | refl => exact h
  | step _ ih => exact upChain_mono ih

/-- Two defined chains from the same pointer coincide. -/
theorem upChain_det {fs : List TimeFolder} {N1 N2 : Nat} {p : Option String}
    {L1 L2 : List (Option String)}
    (h1 : upChain fs N1 p = some L1) (h2 : upChain fs N2 p = some L2) : L1 = L2 := by
  have g1 := upChain_mono_le (Nat.le_max_left N1 N2) h1
  have g2 := upChain_mono_le (Nat.le_max_right N1 N2) h2
  exact Option.some_injective _ (g1.symm.trans g2)

/-- Unfolding a defined chain from a `some` pointer. -/
theorem upChain_some_elim {fs : List TimeFolder} {N : Nat} {x : String}
    {L : List (Option String)} (h : upChain fs (N + 1) (some x) = some L) :
    ∃ g T, lookupFolder fs x = some g ∧ L = some x :: T ∧
      upChain fs N g.parentId = some T := by
  unfold upChain at h
  cases hl : lookupFolder fs x with
  | none => rw [hl] at h; simp at h
  | some g =>
    rw [hl, Option.some_bind] at h
    cases ht : upChain fs N g.parentId with
    | none => rw [ht] at h; simp at h
    | some T =>
      rw [ht, Option.map_some'] at h
      cases h
      exact ⟨g, T, rfl, rfl, ht⟩

/-- A chain starts with its pointer. -/
theorem upChain_head {fs : List TimeFolder} {N : Nat} {p : Option String}
    {L : List (Option String)} (h : upChain fs N p = some L) : ∃ T, L = p :: T := by
  cases N with
  | zero => cases h
  | succ n =>
    cases p with
    | none => cases h; exact ⟨[], rfl⟩
    | some x =>
      rcases upChain_some_elim h with ⟨g, T, _, rfl, _⟩
      exact ⟨T, rfl⟩

/-- Every position of a chain starts the chain of the pointer found there. -/
theorem upChain_get {fs : List TimeFolder} :
    ∀ (i : Nat) {N : Nat} {p : Option String} {L : List (Option String)},
      upChain fs N p = some L → ∀ hi : i < L.length,
        upChain fs N (L.get ⟨i, hi⟩) = some (L.drop i) := by
  intro i
  induction i with
  | zero =>
    intro N p L h hi
    rcases upChain_head h with ⟨T, rfl⟩
    simpa using h
  | succ i ih =>
    intro N p L h hi
    cases N with
    | zero => cases h
    | succ n =>
      cases p with
      | none =>
        cases h
        simp at hi
      | some x =>
        rcases upChain_some_elim h with ⟨g, T, _, rfl, hT⟩
        have hi2 : i < T.length := by simpa using hi
        have hrec := ih hT hi2
        rw [List.get_cons_succ]
        exact upChain_mono hrec

/-- A defined chain has no repeated pointers. -/
theorem upChain_nodup {fs : List TimeFolder} {N : Nat} {p : Option String}
    {L : List (Option String)} (h : upChain fs N p = some L) : L.Nodup := by
  rw [List.nodup_iff_injective_get]
  rintro ⟨i, hi⟩ ⟨j, hj⟩ hij
  have h1 := upChain_get i h hi
  have h2 := upChain_get j h hj
  rw [hij] at h1
  have hd := upChain_det h1 h2
  have hlen : L.length - i = L.length - j := by
    rw [← List.length_drop, ← List.length_drop, hd]
  apply Fin.ext
  show i = j
  omega

/-- Every defined chain contains the root pointer `none`. -/
theorem upChain_none_mem {fs : List TimeFolder} :
    ∀ {N : Nat} {p : Option String} {L : List (Option String)},
      upChain fs N p = some L → none ∈ L := by
  intro N
  induction N with
  | zero => intro p L h; cases h
  | succ n ih =>
    intro p L h
    cases p with
    | none => cases h; exact List.mem_singleton_self none
    | some x =>
      rcases upChain_some_elim h with ⟨g, T, _, rfl, hT⟩
      exact List.mem_cons_of_mem _ (ih hT)

/-- `none` occurs only at the last position of a chain. -/
theorem upChain_none_last {fs : List TimeFolder} {N : Nat} {p : Option String}
    {L : List (Option String)} (h : upChain fs N p = some L)
    {i : Nat} (hi : i < L.length) (hnone : L.get ⟨i, hi⟩ = none) :
    i = L.length - 1 := by
  have hdrop := upChain_get i h hi
  rw [hnone] at hdrop
  cases N with
  | zero => cases h
  | succ n =>
    have hd : L.drop i = [none] := by
      have hnone2 : upChain fs (n + 1) (none : Option String) = some [none] := rfl
      rw [hnone2] at hdrop
      exact (Option.some_injective _ hdrop).symm
    have hlen : L.length - i = 1 := by
      rw [← List.length_drop, hd]
      rfl
    omega

/-- Every `some` pointer of a chain is the id of a folder of the list. -/
theorem upChain_mem_ids {fs : List TimeFolder} {N : Nat} {p : Option String}
    {L : List (Option String)} (h : upChain fs N p = some L)
    {x : String} (hx : some x ∈ L) : x ∈ fs.map TimeFolder.id := by
  rcases List.mem_iff_get.mp hx with ⟨⟨i, hi⟩, hget⟩
  have hdrop := upChain_get i h hi
  rw [hget] at hdrop
  cases N with
  | zero => cases h
  | succ n =>
    rcases upChain_some_elim hdrop with ⟨g, T, hl, _, _⟩
    rcases lookupFolder_some hl with ⟨hg, hgid⟩
    exact List.mem_map.mpr ⟨g, hg, hgid⟩

/-- A duplicate-free list whose elements are all equal has at most one. -/
theorem nodup_const_length_le {α : Type} {a : α} :
    ∀ {l : List α}, l.Nodup → (∀ x ∈ l, x = a) → l.length ≤ 1 := by
  intro l
  match l with
  | [] => intro _ _; simp
  | [x] => intro _ _; simp
  | x :: y :: r =>
    intro hnd hall
    have hx := hall x (by simp)
    have hy := hall y (by simp)
    rw [List.nodup_cons] at hnd
    exact absurd (by rw [hx, hy] : x = y) (fun he => hnd.1 (he ▸ List.mem_cons_self y r))

/-- A defined chain is at most one longer than the folder list. -/
theorem upChain_length_le {fs : List TimeFolder} {N : Nat} {p : Option String}
    {L : List (Option String)} (h : upChain fs N p = some L) :
    L.length ≤ fs.length + 1 := by
  classical
  have hnd := upChain_nodup h
  have hperm := List.filter_append_perm (fun q => q.isSome) L
  have hsome : L.filter (fun q => q.isSome) ⊆ (fs.map TimeFolder.id).map some := by
    intro q hq
    have hmem := List.mem_of_mem_filter hq
    have hq2 := List.of_mem_filter hq
    cases q with
    | none => simp at hq2
    | some x => exact List.mem_map.mpr ⟨x, upChain_mem_ids h hmem, rfl⟩
  have hnd1 : (L.filter (fun q => q.isSome)).Nodup :=
    List.Nodup.sublist (List.filter_sublist L) hnd
  have hlen1 : (L.filter (fun q => q.isSome)).length ≤ fs.length := by
    have hsp := (List.Nodup.subperm hnd1 hsome).length_le
    simpa using hsp
  have hlen2 : (L.filter (fun q => !q.isSome)).length ≤ 1 := by
    refine nodup_const_length_le (a := none)
      (List.Nodup.sublist (List.filter_sublist L) hnd) ?_
    intro x hx
    have hq2 := List.of_mem_filter hx
    cases x with
    | none => rfl
    | some y => simp at hq2
  have hlen := hperm.length_eq
  rw [List.length_append] at hlen
  omega

/-!
Positional helpers: `indexOf` against `take`, duplicate-free positional
injectivity, and the step from a folder's chain position to its parent's.
-/

/-- Membership in a prefix bounds the index of the first occurrence. -/
theorem indexOf_lt_of_mem_take {α : Type} [DecidableEq α] {a : α} :
    ∀ {l : List α} {k : Nat}, a ∈ l.take k → l.indexOf a < k
  | [], k => by simp
  | x :: xs, 0 => by simp
  | x :: xs, k + 1 => by
    intro h
    rw [List.take_succ_cons] at h
    rcases List.mem_cons.mp h with rfl | h2
    · simp [List.indexOf_cons_self]
    · by_cases hax : x = a
      · subst hax
        simp [List.indexOf_cons_self]
      · have hlt := indexOf_lt_of_mem_take h2
        rw [List.indexOf_cons_ne _ (fun he => hax he)]
        omega

/-- An element whose first occurrence is below `k` lies in `take k`. -/
theorem mem_take_of_indexOf_lt {α : Type} [DecidableEq α] {a : α} :
    ∀ {l : List α} {k : Nat}, a ∈ l → l.indexOf a < k → a ∈ l.take k
  | [], k => by simp
  | x :: xs, 0 => by
    intro _ hlt
    exact absurd hlt (Nat.not_lt_zero _)
  | x :: xs, k + 1 => by
    intro hmem hlt
    rw [List.take_succ_cons]
    rcases List.mem_cons.mp hmem with rfl | h2
    · exact List.mem_cons_self _ _
    · by_cases hax : x = a
      · subst hax
        exact List.mem_cons_self _ _
      · rw [List.indexOf_cons_ne _ (fun he => hax he)] at hlt
        exact List.mem_cons_of_mem _ (mem_take_of_indexOf_lt h2 (by omega))

/-- In a duplicate-free list the index of a value found at position `i`
is `i` itself. -/
theorem indexOf_of_getElem? {α : Type} [DecidableEq α] {L : List α}
    (hnd : L.Nodup) {i : Nat} {a : α} (h : L[i]? = some a) : L.indexOf a = i := by
  rcases List.getElem?_eq_some.mp h with ⟨hi, hget⟩
  have e := List.get_indexOf hnd ⟨i, hi⟩
  rw [List.get_eq_getElem, hget] at e
  exact e

/-- In a duplicate-free list a value occurs at one position only. -/
theorem nodup_getElem?_eq {α : Type} [DecidableEq α] {L : List α}
    (hnd : L.Nodup) {i j : Nat} {a : α}
    (hi : L[i]? = some a) (hj : L[j]? = some a) : i = j := by
  have e1 := indexOf_of_getElem? hnd hi
  have e2 := indexOf_of_getElem? hnd hj
  omega

/-- If a folder's id occurs in a chain then the next chain position holds
the folder's own `parentId`. -/
theorem chain_step {fs : List TimeFolder} (hid : (fs.map TimeFolder.id).Nodup)
    {N : Nat} {p0 : Option String} {L : List (Option String)}
    (hL : upChain fs N p0 = some L) {g : TimeFolder} (hg : g ∈ fs)
    (hmem : some g.id ∈ L) :
    L.indexOf (some g.id) + 1 < L.length ∧
      L[L.indexOf (some g.id) + 1]? = some g.parentId := by
  have hilt : L.indexOf (some g.id) < L.length := List.indexOf_lt_length.mpr hmem
  have hget : L.get ⟨L.indexOf (some g.id), hilt⟩ = some g.id := List.indexOf_get hilt
  have hchain := upChain_get (L.indexOf (some g.id)) hL hilt
  rw [hget] at hchain
  cases N with
  | zero => cases hL
  | succ n =>
    rcases upChain_some_elim hchain with ⟨g2, T2, hlk, hdropeq, hT2⟩
    have hg2 : g2 = g := by
      have hself := lookupFolder_self hid hg
      rw [hself] at hlk
      exact (Option.some_injective _ hlk).symm
    subst hg2
    have hdrop2 := List.drop_eq_get_cons hilt
    rw [hget] at hdrop2
    have hT2eq : T2 = L.drop (L.indexOf (some g2.id) + 1) := by
      rw [hdropeq] at hdrop2
      exact List.cons_injective.eq_iff.mp hdrop2
    rcases upChain_head hT2 with ⟨T3, hT2head⟩
    have hlen : L.indexOf (some g2.id) + 1 < L.length := by
      by_contra hcon
      have hnil : L.drop (L.indexOf (some g2.id) + 1) = [] :=
        List.drop_eq_nil_of_le (by omega)
      rw [hT2eq, hnil] at hT2head
      cases hT2head
    refine ⟨hlen, ?_⟩
    have hdrop3 := List.drop_eq_get_cons hlen
    rw [← hT2eq, hT2head] at hdrop3
    injection hdrop3 with hhead _
    rw [List.getElem?_eq_getElem hlen]
    refine congrArg some ?_
    rw [hhead, List.get_eq_getElem]

/-- One element with the property, in a duplicate-free list, gives a
`countP` of one. -/
theorem countP_eq_one_of_unique {α : Type} [DecidableEq α] {p : α → Bool}
    {l : List α} {h : α} (hnd : l.Nodup) (hmem : h ∈ l) (hp : p h = true)
    (huniq : ∀ g ∈ l, p g = true → g = h) : l.countP p = 1 := by
  have hc : l.countP p = l.countP (fun x => x == h) := by
    refine List.countP_congr ?_
    intro x hx
    constructor
    · intro hpx
      simpa using huniq x hx hpx
    · intro hxh
      have : x = h := by simpa using hxh
      rw [this]
      exact hp
  rw [hc, ← List.count_eq_countP]
  exact List.count_eq_one_of_mem hnd hmem

/-- Sums of pointwise-added natural maps split. -/
theorem sum_map_add_nat {α : Type} (a b : α → Nat) :
    ∀ l : List α, (l.map (fun g => a g + b g)).sum = (l.map a).sum + (l.map b).sum
  | [] => by simp
  | x :: l => by
    simp only [List.map_cons, List.sum_cons, sum_map_add_nat a b l]
    omega

/-- A sum of indicator values is a `countP`. -/
theorem sum_map_ite_eq_countP {α : Type} (p : α → Prop) [DecidablePred p] :
    ∀ l : List α,
      (l.map (fun g => if p g then (1 : Nat) else 0)).sum =
        l.countP (fun g => decide (p g))
  | [] => by simp
  | x :: l => by
    simp only [List.map_cons, List.sum_cons, List.countP_cons,
      sum_map_ite_eq_countP p l]
    by_cases h : p x <;> simp [h] <;> omega

/-- `collectD` distributes over appended forests. -/
theorem collectD_append (d : Nat) :
    ∀ l₁ l₂ : List FolderNode, collectD d (l₁ ++ l₂) = collectD d l₁ ++ collectD d l₂ := by
  intro l₁
  induction l₁ using FolderNode.inductionList with
  | nil => intro l₂; simp [collectD]
  | cons f cs ms t rest _ ih2 =>
    intro l₂
    simp only [List.cons_append, collectD, ih2, List.append_assoc]

/-- Counting a folder–depth pair over the collection of a forest built by
mapping a node constructor over a folder list. -/
theorem collectD_map_count (x : TimeFolder × Nat) (d₀ : Nat) (mk : TimeFolder → FolderNode)
    (hmk : ∀ f, ∃ cs ms t, mk f = FolderNode.node f cs ms t) :
    ∀ l : List TimeFolder,
      List.count x (collectD d₀ (l.map mk)) =
        (l.map (fun g => (if (g, d₀) = x then 1 else 0) +
          List.count x (collectD (d₀ + 1) (FolderNode.children (mk g))))).sum
  | [] => by simp [collectD]
  | g :: rest => by
    rcases hmk g with ⟨cs, ms, t, hmkg⟩
    rw [List.map_cons, hmkg]
    simp only [collectD, List.count_cons, List.count_append, List.map_cons, List.sum_cons]
    rw [collectD_map_count x d₀ mk hmk rest]
    have hch : FolderNode.children (mk g) = cs := by rw [hmkg]; rfl
    rw [hch]
    by_cases hx : (g, d₀) = x
    · simp [hx]
      omega
    · have : ¬ ((g, d₀) == x) = true := by simpa using hx
      simp [hx, this]

/-- The element at a proven `get` position, as a `getElem?` fact. -/
theorem getElem?_of_get {α : Type} {L : List α} {i : Nat} (hi : i < L.length)
    {a : α} (h : L.get ⟨i, hi⟩ = a) : L[i]? = some a := by
  rw [List.getElem?_eq_getElem hi]
  refine congrArg some ?_
  rw [← h, List.get_eq_getElem]

/-- The first occurrence position holds the element. -/
theorem getElem?_indexOf_self {α : Type} [DecidableEq α] {L : List α} {a : α}
    (h : a ∈ L) : L[L.indexOf a]? = some a := by
  have hlt := List.indexOf_lt_length.mpr h
  exact getElem?_of_get hlt (List.indexOf_get hlt)

/-- Position bookkeeping for a direct child: when the id of a folder `g`
occurs among the first `n` chain positions, `g.parentId` occurs right
after it, within the first `n + 1` positions. -/
theorem chain_child_pos {fs : List TimeFolder} (hid : (fs.map TimeFolder.id).Nodup)
    {N : Nat} {p0 : Option String} {L : List (Option String)}
    (hL : upChain fs N p0 = some L) {g : TimeFolder} (hg : g ∈ fs) {n : Nat}
    (hmem : some g.id ∈ L.take n) :
    some g.id ∈ L ∧ L.indexOf (some g.id) + 1 < L.length ∧
      L.indexOf (some g.id) < n ∧
      g.parentId ∈ L ∧ L.indexOf g.parentId = L.indexOf (some g.id) + 1 := by
  have hmemL : some g.id ∈ L := List.take_subset n L hmem
  obtain ⟨hlt, hnext⟩ := chain_step hid hL hg hmemL
  have hidx : L.indexOf (some g.id) < n := indexOf_lt_of_mem_take hmem
  have hpmem : g.parentId ∈ L := by
    rcases List.getElem?_eq_some.mp hnext with ⟨hh, hgeteq⟩
    rw [← hgeteq]
    exact List.getElem_mem hh
  have hpidx : L.indexOf g.parentId = L.indexOf (some g.id) + 1 :=
    indexOf_of_getElem? (upChain_nodup hL) hnext
  exact ⟨hmemL, hlt, hidx, hpmem, hpidx⟩

/-- Master counting lemma for the built forest: a folder `f` of the list,
with ancestor chain `L`, appears in the forest built below the parent
pointer `pid` with fuel `n` exactly once — at depth `d₀` plus the position
of `pid` in `L` — when `pid` occurs among the first `n` positions of `L`,
and does not appear otherwise. -/
theorem count_collectD_build (fs : List TimeFolder)
    (mbf : String → List ModuleWithRelations)
    (hid : (fs.map TimeFolder.id).Nodup)
    {f : TimeFolder} (hf : f ∈ fs) {N : Nat} {L : List (Option String)}
    (hL : upChain fs N f.parentId = some L) :
    ∀ (n : Nat) (pid : Option String) (d₀ d : Nat),
      List.count (f, d) (collectD d₀ (build fs mbf n pid)) =
        if pid ∈ L.take n ∧ d = d₀ + L.indexOf pid then 1 else 0 := by
  have hLnd := upChain_nodup hL
  have hfsnd : fs.Nodup := List.Nodup.of_map _ hid
  obtain ⟨Ltail, hLT⟩ := upChain_head hL
  intro n
  induction n with
  | zero =>
    intro pid d₀ d
    simp [build, collectD]
  | succ n ih =>
    intro pid d₀ d
    have hbuild : build fs mbf (n + 1) pid =
        ((fs.filter (fun f2 => f2.parentId = pid)).insertionSort folderByOrder).map
          (fun g => FolderNode.node g (build fs mbf n (some g.id)) (mbf g.id)
            (sumBy ModuleWithRelations.totalHours (mbf g.id) +
              sumBy FolderNode.totalHours (build fs mbf n (some g.id)))) := by
      simp only [build]
    rw [hbuild]
    rw [collectD_map_count (f, d) d₀ _ (fun g => ⟨_, _, _, rfl⟩)]
    simp only [FolderNode.children]
    have hperm := List.perm_insertionSort folderByOrder
      (fs.filter (fun f2 => f2.parentId = pid))
    rw [List.Perm.sum_eq (hperm.map _)]
    have hmapeq : ∀ g ∈ fs.filter (fun f2 => f2.parentId = pid),
        ((if (g, d₀) = (f, d) then (1 : Nat) else 0) +
          List.count (f, d) (collectD (d₀ + 1) (build fs mbf n (some g.id)))) =
        ((if (g, d₀) = (f, d) then (1 : Nat) else 0) +
          (if some g.id ∈ L.take n ∧ d = (d₀ + 1) + L.indexOf (some g.id)
            then 1 else 0)) := by
      intro g _
      rw [ih (some g.id) (d₀ + 1) d]
    rw [List.map_congr_left hmapeq]
    rw [sum_map_add_nat
      (fun g => if (g, d₀) = (f, d) then (1 : Nat) else 0)
      (fun g => if some g.id ∈ L.take n ∧ d = (d₀ + 1) + L.indexOf (some g.id)
        then (1 : Nat) else 0)
      (fs.filter (fun f2 => f2.parentId = pid))]
    rw [sum_map_ite_eq_countP (fun g => (g, d₀) = (f, d))
      (fs.filter (fun f2 => f2.parentId = pid))]
    rw [sum_map_ite_eq_countP
      (fun g => some g.id ∈ L.take n ∧ d = (d₀ + 1) + L.indexOf (some g.id))
      (fs.filter (fun f2 => f2.parentId = pid))]
    by_cases hpd : f.parentId = pid
    · subst hpd
      have hidx0 : L.indexOf f.parentId = 0 := by
        rw [hLT]
        exact List.indexOf_cons_self _ _
      have hmem0 : f.parentId ∈ L.take (n + 1) := by
        rw [hLT, List.take_succ_cons]
        exact List.mem_cons_self _ _
      have hp2zero : List.countP
          (fun g => decide (some g.id ∈ L.take n ∧
            d = (d₀ + 1) + L.indexOf (some g.id)))
          (fs.filter (fun f2 => f2.parentId = f.parentId)) = 0 := by
        rw [List.countP_eq_zero]
        intro g hgf
        simp only [decide_eq_true_eq, not_and]
        intro htk _
        have hgfs : g ∈ fs := List.mem_of_mem_filter hgf
        have hgp : g.parentId = f.parentId := by
          have hfp := List.of_mem_filter hgf
          simpa using hfp
        obtain ⟨_, _, _, _, hpidx⟩ := chain_child_pos hid hL hgfs htk
        rw [hgp, hidx0] at hpidx
        omega
      rw [hp2zero]
      by_cases hd : d = d₀
      · subst hd
        have hp1 : List.countP (fun g => decide ((g, d) = (f, d)))
            (fs.filter (fun f2 => f2.parentId = f.parentId)) = 1 := by
          refine countP_eq_one_of_unique
            (List.Nodup.filter _ hfsnd)
            (List.mem_filter.mpr ⟨hf, by simp⟩) (by simp) ?_
          intro g _ hpg
          have hpg2 : (g, d) = (f, d) := by simpa using hpg
          exact (Prod.ext_iff.mp hpg2).1
        rw [hp1, if_pos ⟨hmem0, by omega⟩]
      · have hp1 : List.countP (fun g => decide ((g, d₀) = (f, d)))
            (fs.filter (fun f2 => f2.parentId = f.parentId)) = 0 := by
          rw [List.countP_eq_zero]
          intro g _
          simp only [decide_eq_true_eq]
          intro hcon
          exact hd (Prod.ext_iff.mp hcon).2.symm
        have hcond : ¬ (f.parentId ∈ L.take (n + 1) ∧
            d = d₀ + L.indexOf f.parentId) := by
          rintro ⟨_, hdd⟩
          rw [hidx0] at hdd
          omega
        rw [hp1, if_neg hcond]
    · have hp1 : List.countP (fun g => decide ((g, d₀) = (f, d)))
          (fs.filter (fun f2 => f2.parentId = pid)) = 0 := by
        rw [List.countP_eq_zero]
        intro g hgf
        simp only [decide_eq_true_eq]
        intro hcon
        have hgp : g.parentId = pid := by
          have hfp := List.of_mem_filter hgf
          simpa using hfp
        have hgf2 : g = f := (Prod.ext_iff.mp hcon).1
        exact hpd (hgf2 ▸ hgp)
      rw [hp1]
      by_cases hRc : pid ∈ L.take (n + 1) ∧ d = d₀ + L.indexOf pid
      · obtain ⟨hptk, hd⟩ := hRc
        have hpmemL : pid ∈ L := List.take_subset _ _ hptk
        have hjlt : L.indexOf pid < L.length := List.indexOf_lt_length.mpr hpmemL
        have hjn : L.indexOf pid < n + 1 := indexOf_lt_of_mem_take hptk
        have hgetj : L[L.indexOf pid]? = some pid := getElem?_indexOf_self hpmemL
        have hjne : L.indexOf pid ≠ 0 := by
          rw [hLT, List.indexOf_cons_ne _ (fun he => hpd he)]
          omega
        have hj1 : L.indexOf pid - 1 < L.length := by omega
        cases hq : L.get ⟨L.indexOf pid - 1, hj1⟩ with
        | none =>
          exfalso
          have hlast := upChain_none_last hL hj1 hq
          omega
        | some x =>
          have hxq : L[L.indexOf pid - 1]? = some (some x) := getElem?_of_get hj1 hq
          have hxmem : some x ∈ L := by
            rw [← hq]
            exact List.get_mem _ _ _
          rcases List.mem_map.mp (upChain_mem_ids hL hxmem) with ⟨h0, hh0fs, hh0id⟩
          have hidxx : L.indexOf (some x) = L.indexOf pid - 1 :=
            indexOf_of_getElem? hLnd hxq
          obtain ⟨hstep_lt, hstep_get⟩ := chain_step hid hL hh0fs
            (by rw [hh0id]; exact hxmem)
          rw [hh0id, hidxx] at hstep_lt hstep_get
          have hjj : L.indexOf pid - 1 + 1 = L.indexOf pid := by omega
          rw [hjj] at hstep_lt hstep_get
          have hparent : h0.parentId = pid := by
            rw [hstep_get] at hgetj
            exact Option.some_injective _ hgetj
          have hh0filter : h0 ∈ fs.filter (fun f2 => f2.parentId = pid) :=
            List.mem_filter.mpr ⟨hh0fs, by simp [hparent]⟩
          have hp2one : List.countP
              (fun g => decide (some g.id ∈ L.take n ∧
                d = (d₀ + 1) + L.indexOf (some g.id)))
              (fs.filter (fun f2 => f2.parentId = pid)) = 1 := by
            refine countP_eq_one_of_unique (List.Nodup.filter _ hfsnd) hh0filter ?_ ?_
            · simp only [decide_eq_true_eq]
              constructor
              · rw [hh0id]
                exact mem_take_of_indexOf_lt hxmem (by omega)
              · rw [hh0id, hidxx]
                omega
            · intro g hgf hpg
              simp only [decide_eq_true_eq] at hpg
              obtain ⟨htkg, _⟩ := hpg
              have hgfs := List.mem_of_mem_filter hgf
              have hgp : g.parentId = pid := by
                have hfp := List.of_mem_filter hgf
                simpa using hfp
              obtain ⟨hgmemL, _, hgidxlt, _, hgpidx⟩ :=
                chain_child_pos hid hL hgfs htkg
              rw [hgp] at hgpidx
              have hidxeq : L.indexOf (some g.id) = L.indexOf pid - 1 := by omega
              have e1 : L[L.indexOf pid - 1]? = some (some g.id) := by
                rw [← hidxeq]
                exact getElem?_indexOf_self hgmemL
              rw [hxq] at e1
              have hgidx : some g.id = some x :=
                (Option.some_injective _ e1).symm
              refine List.inj_on_of_nodup_map hid hgfs hh0fs ?_
              rw [hh0id]
              exact Option.some_injective _ hgidx
          rw [hp2one, if_pos ⟨hptk, hd⟩]
      · have hp2zero : List.countP
            (fun g => decide (some g.id ∈ L.take n ∧
              d = (d₀ + 1) + L.indexOf (some g.id)))
            (fs.filter (fun f2 => f2.parentId = pid)) = 0 := by
          rw [List.countP_eq_zero]
          intro g hgf hcontra
          rw [decide_eq_true_eq] at hcontra
          obtain ⟨htkg, hdg⟩ := hcontra
          apply hRc
          have hgfs := List.mem_of_mem_filter hgf
          have hgp : g.parentId = pid := by
            have hfp := List.of_mem_filter hgf
            simpa using hfp
          obtain ⟨hgmemL, _, hgidxlt, hpmem2, hgpidx⟩ :=
            chain_child_pos hid hL hgfs htkg
          rw [hgp] at hpmem2 hgpidx
          exact ⟨mem_take_of_indexOf_lt hpmem2 (by omega), by omega⟩
        rw [hp2zero, if_neg hRc]

/-- Membership in `allNodes`: a node is a root of the forest or sits in
the `allNodes` of some root's children. -/
theorem allNodes_mem_iff {s : FolderNode} :
    ∀ {ts : List FolderNode}, s ∈ allNodes ts ↔
      ∃ t ∈ ts, s = t ∨ s ∈ allNodes (FolderNode.children t) := by
  intro ts
  induction ts using FolderNode.inductionList with
  | nil => simp [allNodes]
  | cons f cs ms t rest _ ihrest =>
    simp only [allNodes, List.mem_cons, List.mem_append]
    constructor
    · rintro (rfl | hcs | hrest)
      · exact ⟨FolderNode.node f cs ms t, Or.inl rfl, Or.inl rfl⟩
      · exact ⟨FolderNode.node f cs ms t, Or.inl rfl, Or.inr hcs⟩
      · rcases ihrest.mp hrest with ⟨u, hu, hcase⟩
        exact ⟨u, Or.inr hu, hcase⟩
    · rintro ⟨u, hu | hu, hcase⟩
      · subst hu
        rcases hcase with rfl | hcs
        · exact Or.inl rfl
        · exact Or.inr (Or.inl hcs)
      · exact Or.inr (Or.inr (ihrest.mpr ⟨u, hu, hcase⟩))

/-- The chain of a direct child's id pointer extends the parent chain. -/
theorem upChain_child {fs : List TimeFolder} (hid : (fs.map TimeFolder.id).Nodup)
    {N : Nat} {p : Option String} {L : List (Option String)}
    (hp : upChain fs N p = some L) {g : TimeFolder} (hgfs : g ∈ fs)
    (hgp : g.parentId = p) :
    upChain fs (N + 1) (some g.id) = some (some g.id :: L) := by
  have hstep : upChain fs (N + 1) (some g.id) =
      (lookupFolder fs g.id).bind (fun g2 =>
        (upChain fs N g2.parentId).map (fun L2 => some g.id :: L2)) := by
    simp only [upChain]
  rw [hstep, lookupFolder_self hid hgfs, Option.some_bind, hgp, hp, Option.map_some']

/-- Fuel irrelevance: once the fuel reaches `fs.length + 2` minus the
chain length of the parent pointer, the built forest no longer depends on
the fuel. -/
theorem build_fuel_irrel (fs : List TimeFolder)
    (mbf : String → List ModuleWithRelations)
    (hid : (fs.map TimeFolder.id).Nodup) :
    ∀ (n : Nat) {m : Nat} {p : Option String} {N : Nat} {L : List (Option String)},
      upChain fs N p = some L →
      fs.length + 2 - L.length ≤ n → fs.length + 2 - L.length ≤ m →
      build fs mbf n p = build fs mbf m p := by
  intro n
  induction n using Nat.strong_induction_on with
  | _ n ihn =>
    intro m p N L hp hn hm
    have hLlen := upChain_length_le hp
    obtain ⟨n2, rfl⟩ : ∃ n2, n = n2 + 1 := ⟨n - 1, by omega⟩
    obtain ⟨m2, rfl⟩ : ∃ m2, m = m2 + 1 := ⟨m - 1, by omega⟩
    show build fs mbf (n2 + 1) p = build fs mbf (m2 + 1) p
    simp only [build]
    refine List.map_congr_left ?_
    intro g hg
    have hgfilter := (List.perm_insertionSort folderByOrder _).mem_iff.mp hg
    have hgfs : g ∈ fs := List.mem_of_mem_filter hgfilter
    have hgp : g.parentId = p := by
      have hfp := List.of_mem_filter hgfilter
      simpa using hfp
    have hchild := upChain_child hid hp hgfs hgp
    have hce : build fs mbf n2 (some g.id) = build fs mbf m2 (some g.id) := by
      refine ihn n2 (by omega) hchild ?_ ?_
      · simp only [List.length_cons]
        omega
      · simp only [List.length_cons]
        omega
    rw [hce]

/-- Every node of the canonically fuelled build carries its own id's
chain, its children are the canonically fuelled build below its id, its
modules come from the module index, and its total is the module total
plus the children total. -/
theorem allNodes_build_spec (fs : List TimeFolder)
    (mbf : String → List ModuleWithRelations)
    (hid : (fs.map TimeFolder.id).Nodup) :
    ∀ (n : Nat) {p : Option String} {N : Nat} {L : List (Option String)},
      upChain fs N p = some L → n = fs.length + 2 - L.length →
      ∀ t ∈ allNodes (build fs mbf n p),
        ∃ N2 L2, upChain fs N2 (some (FolderNode.folder t).id) = some L2 ∧
          FolderNode.children t =
            build fs mbf (fs.length + 2 - L2.length) (some (FolderNode.folder t).id) ∧
          FolderNode.modules t = mbf (FolderNode.folder t).id ∧
          FolderNode.totalHours t =
            sumBy ModuleWithRelations.totalHours (FolderNode.modules t) +
              sumBy FolderNode.totalHours (FolderNode.children t) := by
  intro n
  induction n using Nat.strong_induction_on with
  | _ n ihn =>
    intro p N L hp hn t ht
    have hLlen := upChain_length_le hp
    obtain ⟨n2, rfl⟩ : ∃ n2, n = n2 + 1 := ⟨n - 1, by omega⟩
    rw [show build fs mbf (n2 + 1) p =
      ((fs.filter (fun f2 => f2.parentId = p)).insertionSort folderByOrder).map
        (fun g => FolderNode.node g (build fs mbf n2 (some g.id)) (mbf g.id)
          (sumBy ModuleWithRelations.totalHours (mbf g.id) +
            sumBy FolderNode.totalHours (build fs mbf n2 (some g.id)))) from
      by simp only [build]] at ht
    rcases allNodes_mem_iff.mp ht with ⟨u, hu, hcase⟩
    rcases List.mem_map.mp hu with ⟨g, hg, rfl⟩
    have hgfilter := (List.perm_insertionSort folderByOrder _).mem_iff.mp hg
    have hgfs : g ∈ fs := List.mem_of_mem_filter hgfilter
    have hgp : g.parentId = p := by
      have hfp := List.of_mem_filter hgfilter
      simpa using hfp
    have hchild := upChain_child hid hp hgfs hgp
    have hn2 : n2 = fs.length + 2 - (some g.id :: L).length := by
      simp only [List.length_cons]
      omega
    rcases hcase with rfl | hdeep
    · refine ⟨N + 1, some g.id :: L, hchild, ?_, rfl, rfl⟩
      simp only [FolderNode.children, FolderNode.folder]
      rw [← hn2]
    · exact ihn n2 (by omega) hchild hn2 t hdeep

/-- One `build` step exposes its top-level folders: the `parentId`
matches, sorted by `order`. -/
theorem build_top_succ (fs : List TimeFolder)
    (mbf : String → List ModuleWithRelations) (k : Nat) (pid : Option String) :
    (build fs mbf (k + 1) pid).map FolderNode.folder =
      (fs.filter (fun f2 => f2.parentId = pid)).insertionSort folderByOrder := by
  rw [show build fs mbf (k + 1) pid =
    ((fs.filter (fun f2 => f2.parentId = pid)).insertionSort folderByOrder).map
      (fun g => FolderNode.node g (build fs mbf k (some g.id)) (mbf g.id)
        (sumBy ModuleWithRelations.totalHours (mbf g.id) +
          sumBy FolderNode.totalHours (build fs mbf k (some g.id)))) from
    by simp only [build]]
  rw [List.map_map]
  exact (List.map_congr_left (fun g _ => rfl)).trans (List.map_id _)

/-- The index of `none` in a chain is its last position. -/
theorem upChain_indexOf_none {fs : List TimeFolder} {N : Nat} {p : Option String}
    {L : List (Option String)} (h : upChain fs N p = some L) :
    L.indexOf (none : Option String) = L.length - 1 := by
  have hmem := upChain_none_mem h
  have hlt := List.indexOf_lt_length.mpr hmem
  exact upChain_none_last h hlt (List.indexOf_get hlt)

/-- C2: on a well-formed (acyclic, resolvable, duplicate-free) folder
list, the built tree contains every folder exactly once, at depth equal
to the length of its ancestor chain; the roots are exactly the folders
with `parentId` null and every node's children are exactly the folders
whose `parentId` is its id, both sorted by `order` ascending. -/
theorem buildFolderTree_roundtrip (fs : List TimeFolder)
    (mbf : String → List ModuleWithRelations) (hwf : WellFormedFolders fs) :
    (∀ f ∈ fs, ∀ L, upChain fs (fs.length + 1) f.parentId = some L →
      ∀ d : Nat, List.count (f, d) (collectD 0 (buildFolderTree fs mbf)) =
        if d = L.length - 1 then 1 else 0) ∧
    ((buildFolderTree fs mbf).map FolderNode.folder).Perm
      (fs.filter (fun f2 => f2.parentId = none)) ∧
    List.Pairwise folderByOrder ((buildFolderTree fs mbf).map FolderNode.folder) ∧
    (∀ t ∈ allNodes (buildFolderTree fs mbf),
      ((FolderNode.children t).map FolderNode.folder).Perm
        (fs.filter (fun f2 => f2.parentId = some (FolderNode.folder t).id)) ∧
      List.Pairwise folderByOrder ((FolderNode.children t).map FolderNode.folder)) := by
  have htop : (buildFolderTree fs mbf).map FolderNode.folder =
      (fs.filter (fun f2 => f2.parentId = none)).insertionSort folderByOrder :=
    build_top_succ fs mbf fs.length none
  refine ⟨?_, ?_, ?_, ?_⟩
  · intro f hf L hLc d
    have hmaster := count_collectD_build fs mbf hwf.1 hf hLc (fs.length + 1) none 0 d
    rw [show buildFolderTree fs mbf = build fs mbf (fs.length + 1) none from rfl,
      hmaster]
    have h1 : L.take (fs.length + 1) = L :=
      List.take_of_length_le (upChain_length_le hLc)
    have h2 : (none : Option String) ∈ L := upChain_none_mem hLc
    have h3 := upChain_indexOf_none hLc
    rw [h1]
    by_cases hd : d = L.length - 1
    · rw [if_pos ⟨h2, by omega⟩, if_pos hd]
    · rw [if_neg ?_, if_neg hd]
      rintro ⟨_, hdd⟩
      omega
  · rw [htop]
    exact List.perm_insertionSort folderByOrder _
  · rw [htop]
    exact List.sorted_insertionSort folderByOrder _
  · intro t ht
    have hchain0 : upChain fs 1 (none : Option String) = some [none] := rfl
    have hspec := allNodes_build_spec fs mbf hwf.1 (fs.length + 1) hchain0
      (by simp) t ht
    rcases hspec with ⟨N2, L2, hL2, hch, _, _⟩
    have hL2len := upChain_length_le hL2
    have hL2pos : 1 ≤ L2.length := by
      rcases upChain_head hL2 with ⟨T, rfl⟩
      simp
    obtain ⟨k, hk⟩ : ∃ k, fs.length + 2 - L2.length = k + 1 :=
      ⟨fs.length + 1 - L2.length, by omega⟩
    rw [hch, hk]
    rw [build_top_succ fs mbf k (some (FolderNode.folder t).id)]
    exact ⟨List.perm_insertionSort folderByOrder _,
      List.sorted_insertionSort folderByOrder _⟩

/-- Witness for `buildFolderTree_roundtrip` at the fixture folder list:
`A1` appears exactly once, at depth 1, and the roots are exactly `[A]`. -/
theorem buildFolderTree_roundtrip_witness :
    List.count ((⟨"a1", "A1", some "a", 0⟩ : TimeFolder), 1)
      (collectD 0 (buildFolderTree exFolders (fun _ => []))) = 1 ∧
    List.count ((⟨"a1", "A1", some "a", 0⟩ : TimeFolder), 0)
      (collectD 0 (buildFolderTree exFolders (fun _ => []))) = 0 ∧
    ((buildFolderTree exFolders (fun _ => [])).map FolderNode.folder).Perm
      (exFolders.filter (fun f2 => f2.parentId = none)) := by
  have h := buildFolderTree_roundtrip exFolders (fun _ => []) (by decide)
  have h1 := h.1 (⟨"a1", "A1", some "a", 0⟩ : TimeFolder) (by decide)
    [some "a", none] (by decide)
  refine ⟨?_, ?_, h.2.1⟩
  · simpa using h1 1
  · simpa using h1 0

/-- `sumBy` over a cons. -/
theorem sumBy_cons {α : Type} (f : α → ℚ) (x : α) (l : List α) :
    sumBy f (x :: l) = f x + sumBy f l := by
  simp [sumBy_eq]

/-- `sumBy` over a mapped list composes. -/
theorem sumBy_map {α β : Type} (f : β → ℚ) (h : α → β) (l : List α) :
    sumBy f (l.map h) = sumBy (fun a => f (h a)) l := by
  simp [sumBy_eq, List.map_map]
  rfl

/-- `sumBy` respects pointwise equality on the list. -/
theorem sumBy_congr {α : Type} {f g : α → ℚ} {l : List α}
    (h : ∀ a ∈ l, f a = g a) : sumBy f l = sumBy g l := by
  rw [sumBy_eq, sumBy_eq, List.map_congr_left h]

/-- `collectF` distributes over appended forests. -/
theorem collectF_append :
    ∀ l₁ l₂ : List FolderNode, collectF (l₁ ++ l₂) = collectF l₁ ++ collectF l₂ := by
  intro l₁
  induction l₁ using FolderNode.inductionList with
  | nil => intro l₂; simp [collectF]
  | cons f cs ms t rest _ ih2 =>
    intro l₂
    simp only [List.cons_append, collectF, ih2, List.append_assoc]

/-- Membership in `collectF` is membership of some node's folder. -/
theorem collectF_mem_iff {g : TimeFolder} :
    ∀ {ts : List FolderNode}, g ∈ collectF ts ↔
      ∃ t ∈ allNodes ts, FolderNode.folder t = g := by
  intro ts
  induction ts using FolderNode.inductionList with
  | nil => simp [collectF, allNodes]
  | cons f cs ms t rest ihcs ihrest =>
    simp only [collectF, allNodes, List.mem_cons, List.mem_append]
    constructor
    · rintro (rfl | hcs | hrest)
      · exact ⟨FolderNode.node g cs ms t, Or.inl rfl, rfl⟩
      · rcases ihcs.mp hcs with ⟨u, hu, he⟩
        exact ⟨u, Or.inr (Or.inl hu), he⟩
      · rcases ihrest.mp hrest with ⟨u, hu, he⟩
        exact ⟨u, Or.inr (Or.inr hu), he⟩
    · rintro ⟨u, rfl | hu | hu, he⟩
      · exact Or.inl he.symm
      · exact Or.inr (Or.inl (ihcs.mpr ⟨u, hu, he⟩))
      · exact Or.inr (Or.inr (ihrest.mpr ⟨u, hu, he⟩))

/-- Folders collected from a built forest come from the folder list. -/
theorem collectF_build_subset (fs : List TimeFolder)
    (mbf : String → List ModuleWithRelations) :
    ∀ (n : Nat) (p : Option String), ∀ g ∈ collectF (build fs mbf n p), g ∈ fs := by
  intro n
  induction n with
  | zero =>
    intro p g hg
    simp [build, collectF] at hg
  | succ n ih =>
    intro p g hg
    rw [show build fs mbf (n + 1) p =
      ((fs.filter (fun f2 => f2.parentId = p)).insertionSort folderByOrder).map
        (fun g2 => FolderNode.node g2 (build fs mbf n (some g2.id)) (mbf g2.id)
          (sumBy ModuleWithRelations.totalHours (mbf g2.id) +
            sumBy FolderNode.totalHours (build fs mbf n (some g2.id)))) from
      by simp only [build]] at hg
    rcases collectF_mem_iff.mp hg with ⟨t, ht, rfl⟩
    rcases allNodes_mem_iff.mp ht with ⟨u, hu, hcase⟩
    rcases List.mem_map.mp hu with ⟨g2, hg2, rfl⟩
    have hg2fs : g2 ∈ fs :=
      List.mem_of_mem_filter ((List.perm_insertionSort folderByOrder _).mem_iff.mp hg2)
    rcases hcase with rfl | hdeep
    · exact hg2fs
    · exact ih (some g2.id) _ (collectF_mem_iff.mpr ⟨t, hdeep, rfl⟩)

/-- Sum of a folder-indexed weight over the collection of a mapped
forest. -/
theorem sumBy_collectF_map (F : TimeFolder → ℚ) (mk : TimeFolder → FolderNode)
    (hmk : ∀ f, ∃ cs ms t, mk f = FolderNode.node f cs ms t) :
    ∀ l : List TimeFolder,
      sumBy F (collectF (l.map mk)) =
        sumBy (fun g => F g + sumBy F (collectF (FolderNode.children (mk g)))) l
  | [] => by simp [collectF, sumBy_eq]
  | g :: rest => by
    rcases hmk g with ⟨cs, ms, t, hmkg⟩
    rw [List.map_cons, hmkg]
    rw [show collectF (FolderNode.node g cs ms t :: rest.map mk) =
      g :: (collectF cs ++ collectF (rest.map mk)) from by simp [collectF]]
    rw [sumBy_cons, sumBy_append, sumBy_cons,
      sumBy_collectF_map F mk hmk rest]
    have hch : FolderNode.children (mk g) = cs := by rw [hmkg]; rfl
    rw [hch]
    ring

/-- The total of a built forest is the sum, over its collected folders,
of the module-index totals. -/
theorem sumBy_totals_build (fs : List TimeFolder)
    (mbf : String → List ModuleWithRelations) :
    ∀ (n : Nat) (p : Option String),
      sumBy FolderNode.totalHours (build fs mbf n p) =
        sumBy (fun g => sumBy ModuleWithRelations.totalHours (mbf g.id))
          (collectF (build fs mbf n p)) := by
  intro n
  induction n with
  | zero =>
    intro p
    simp [build, collectF, sumBy_eq]
  | succ n ih =>
    intro p
    rw [show build fs mbf (n + 1) p =
      ((fs.filter (fun f2 => f2.parentId = p)).insertionSort folderByOrder).map
        (fun g2 => FolderNode.node g2 (build fs mbf n (some g2.id)) (mbf g2.id)
          (sumBy ModuleWithRelations.totalHours (mbf g2.id) +
            sumBy FolderNode.totalHours (build fs mbf n (some g2.id)))) from
      by simp only [build]]
    rw [sumBy_collectF_map (fun g => sumBy ModuleWithRelations.totalHours (mbf g.id))
      _ (fun g => ⟨_, _, _, rfl⟩)]
    rw [sumBy_map]
    refine sumBy_congr ?_
    intro g _
    show sumBy ModuleWithRelations.totalHours (mbf g.id) +
        sumBy FolderNode.totalHours (build fs mbf n (some g.id)) = _
    rw [ih (some g.id)]
    rfl

/-- Collecting a single node: its folder, then its children's collection. -/
theorem collectF_single (t : FolderNode) :
    collectF [t] = FolderNode.folder t :: collectF (FolderNode.children t) := by
  cases t with
  | node f cs ms tot => simp [collectF, FolderNode.folder, FolderNode.children]

/-- Every node of a built forest totals the module-index hours over its
own subtree folders. -/
theorem allNodes_totalHours (fs : List TimeFolder)
    (mbf : String → List ModuleWithRelations) :
    ∀ (n : Nat) (p : Option String), ∀ t ∈ allNodes (build fs mbf n p),
      FolderNode.totalHours t =
        sumBy (fun g => sumBy ModuleWithRelations.totalHours (mbf g.id))
          (collectF [t]) := by
  intro n
  induction n with
  | zero =>
    intro p t ht
    simp [build, allNodes] at ht
  | succ n ih =>
    intro p t ht
    rw [show build fs mbf (n + 1) p =
      ((fs.filter (fun f2 => f2.parentId = p)).insertionSort folderByOrder).map
        (fun g2 => FolderNode.node g2 (build fs mbf n (some g2.id)) (mbf g2.id)
          (sumBy ModuleWithRelations.totalHours (mbf g2.id) +
            sumBy FolderNode.totalHours (build fs mbf n (some g2.id)))) from
      by simp only [build]] at ht
    rcases allNodes_mem_iff.mp ht with ⟨u, hu, hcase⟩
    rcases List.mem_map.mp hu with ⟨g, hg, rfl⟩
    rcases hcase with rfl | hdeep
    · rw [collectF_single]
      simp only [FolderNode.folder, FolderNode.children, FolderNode.totalHours]
      rw [sumBy_cons, sumBy_totals_build fs mbf n (some g.id)]
    · exact ih (some g.id) t hdeep

/-- `collectF` is the first projection of `collectD`. -/
theorem collectF_eq_map_fst (d : Nat) :
    ∀ ts : List FolderNode, collectF ts = (collectD d ts).map Prod.fst := by
  intro ts
  induction ts using FolderNode.inductionList generalizing d with
  | nil => simp [collectF, collectD]
  | cons f cs ms t rest ihcs ihrest =>
    simp only [collectF, collectD, List.map_cons, List.map_append]
    rw [ihcs (d + 1), ihrest d]

/-- Counting in a mapped list is counting preimages. -/
theorem count_map_eq_countP {α β : Type} [DecidableEq α] [DecidableEq β]
    (f : α → β) (b : β) :
    ∀ l : List α, List.count b (l.map f) = l.countP (fun x => f x == b)
  | [] => by simp
  | x :: l => by
    simp only [List.map_cons, List.count_cons, List.countP_cons,
      count_map_eq_countP f b l]

/-- On a well-formed folder list every folder is collected exactly once
from the built tree. -/
theorem count_collectF_tree (fs : List TimeFolder)
    (mbf : String → List ModuleWithRelations) (hwf : WellFormedFolders fs) :
    ∀ f ∈ fs, List.count f (collectF (buildFolderTree fs mbf)) = 1 := by
  intro f hf
  rcases Option.isSome_iff_exists.mp (hwf.2 f hf) with ⟨L, hL⟩
  have h1 : L.take (fs.length + 1) = L :=
    List.take_of_length_le (upChain_length_le hL)
  have h2 : (none : Option String) ∈ L := upChain_none_mem hL
  have h3 := upChain_indexOf_none hL
  have hmaster := fun d => count_collectD_build fs mbf hwf.1 hf hL
    (fs.length + 1) none 0 d
  rw [show buildFolderTree fs mbf = build fs mbf (fs.length + 1) none from rfl]
  rw [collectF_eq_map_fst 0, count_map_eq_countP]
  have hcongr : List.countP (fun pr => pr.1 == f)
      (collectD 0 (build fs mbf (fs.length + 1) none)) =
      List.countP (fun pr => pr == (f, L.length - 1))
      (collectD 0 (build fs mbf (fs.length + 1) none)) := by
    refine List.countP_congr ?_
    intro pr hpr
    simp only [beq_iff_eq]
    constructor
    · intro hfst
      have hpos : 0 < List.count pr (collectD 0 (build fs mbf (fs.length + 1) none)) :=
        List.count_pos_iff.mpr hpr
      obtain ⟨g, dd⟩ := pr
      cases hfst
      have hc := hmaster dd
      rw [h1] at hc
      by_cases hdd : dd = L.length - 1
      · rw [hdd]
      · rw [if_neg ?_] at hc
        · rw [hc] at hpos
          cases hpos
        · rintro ⟨_, hdd2⟩
          omega
    · rintro rfl
      rfl
  rw [hcongr, ← List.count_eq_countP, hmaster (L.length - 1), h1,
    if_pos ⟨h2, by omega⟩]

/-- The collected folders of the built tree are duplicate-free and drawn
from the folder list. -/
theorem collectF_tree_nodup (fs : List TimeFolder)
    (mbf : String → List ModuleWithRelations) (hwf : WellFormedFolders fs) :
    (collectF (buildFolderTree fs mbf)).Nodup ∧
      ∀ g ∈ collectF (buildFolderTree fs mbf), g ∈ fs := by
  have hsub : ∀ g ∈ collectF (buildFolderTree fs mbf), g ∈ fs :=
    collectF_build_subset fs mbf (fs.length + 1) none
  refine ⟨?_, hsub⟩
  rw [List.nodup_iff_count_le_one]
  intro a
  by_cases ha : a ∈ collectF (buildFolderTree fs mbf)
  · rw [count_collectF_tree fs mbf hwf a (hsub a ha)]
  · rw [List.count_eq_zero.mpr ha]
    omega

/-- A node's own collection is a sub-permutation of the forest's. -/
theorem collectF_subtree_subperm {t : FolderNode} :
    ∀ {ts : List FolderNode}, t ∈ allNodes ts →
      (collectF [t]).Subperm (collectF ts) := by
  intro ts
  induction ts using FolderNode.inductionList with
  | nil => intro ht; simp [allNodes] at ht
  | cons f cs ms tot rest ihcs ihrest =>
    intro ht
    simp only [allNodes, List.mem_cons, List.mem_append] at ht
    have hwhole : collectF (FolderNode.node f cs ms tot :: rest) =
        f :: (collectF cs ++ collectF rest) := by
      simp [collectF]
    rcases ht with heq | hcs | hrest
    · subst heq
      rw [show collectF [FolderNode.node f cs ms tot] = f :: collectF cs from
        by simp [collectF], hwhole]
      exact (List.Sublist.cons₂ f (List.sublist_append_left _ _)).subperm
    · refine (ihcs hcs).trans ?_
      rw [hwhole]
      exact ((List.sublist_append_left _ _).cons f).subperm
    · refine (ihrest hrest).trans ?_
      rw [hwhole]
      exact ((List.sublist_append_right _ _).cons f).subperm

/-- Subtree ids of a tree node are duplicate-free and belong to the list. -/
theorem subtreeIds_nodup (fs : List TimeFolder)
    (mbf : String → List ModuleWithRelations) (hwf : WellFormedFolders fs)
    {t : FolderNode} (ht : t ∈ allNodes (buildFolderTree fs mbf)) :
    (subtreeIds t).Nodup ∧ ∀ g ∈ collectF [t], g ∈ fs := by
  obtain ⟨hndwhole, hsub⟩ := collectF_tree_nodup fs mbf hwf
  have hsp := collectF_subtree_subperm ht
  rcases hsp with ⟨l2, hperm, hsubl⟩
  have hnd2 : (collectF [t]).Nodup := hperm.nodup (List.Nodup.sublist hsubl hndwhole)
  have hsub2 : ∀ g ∈ collectF [t], g ∈ fs := by
    intro g hg
    exact hsub g (hsubl.subset (hperm.symm.subset hg))
  refine ⟨?_, hsub2⟩
  refine List.Nodup.map_on ?_ hnd2
  intro x hx y hy hxy
  exact List.inj_on_of_nodup_map hwf.1 (hsub2 x hx) (hsub2 y hy) hxy

/-- `sumBy` of the zero weight vanishes. -/
theorem sumBy_zero {α : Type} :
    ∀ l : List α, sumBy (fun _ => (0 : ℚ)) l = 0
  | [] => rfl
  | x :: l => by rw [sumBy_cons, sumBy_zero l, add_zero]

/-- `sumBy` of a pointwise sum splits. -/
theorem sumBy_add {α : Type} (a b : α → ℚ) :
    ∀ l : List α, sumBy (fun x => a x + b x) l = sumBy a l + sumBy b l
  | [] => by simp [sumBy_eq]
  | x :: l => by
    rw [sumBy_cons, sumBy_cons, sumBy_cons, sumBy_add a b l]
    ring

/-- Summing an indicator over duplicate-free keys tests membership. -/
theorem sumBy_ite_key {κ : Type} [DecidableEq κ] (c : κ) (v : ℚ) :
    ∀ ks : List κ, ks.Nodup →
      sumBy (fun k => if c = k then v else 0) ks = if c ∈ ks then v else 0
  | [], _ => by simp [sumBy_eq]
  | k :: ks, hnd => by
    rw [List.nodup_cons] at hnd
    rw [sumBy_cons, sumBy_ite_key c v ks hnd.2]
    by_cases hck : c = k
    · subst hck
      rw [if_pos rfl, if_neg hnd.1, if_pos (List.mem_cons_self _ _), add_zero]
    · rw [if_neg hck, zero_add]
      have hiff : (c ∈ ks) ↔ (c ∈ k :: ks) := by
        rw [List.mem_cons]
        exact ⟨Or.inr, fun h => h.resolve_left hck⟩
      rw [if_congr hiff rfl rfl]

/-- Summing per-key filtered sums over duplicate-free keys equals one sum
over the union filter. -/
theorem sumBy_filter_keys {α κ : Type} [DecidableEq κ] (key : α → κ) (F : α → ℚ)
    (ks : List κ) (hnd : ks.Nodup) :
    ∀ xs : List α,
      sumBy (fun k => sumBy F (xs.filter (fun x => key x == k))) ks =
        sumBy F (xs.filter (fun x => decide (key x ∈ ks)))
  | [] => by
    simp only [List.filter_nil]
    exact sumBy_zero ks
  | x :: xs => by
    simp only [List.filter_cons]
    have hpoint : ∀ k ∈ ks,
        sumBy F (if (key x == k) = true
          then x :: xs.filter (fun x2 => key x2 == k)
          else xs.filter (fun x2 => key x2 == k)) =
        (if key x = k then F x else 0) +
          sumBy F (xs.filter (fun x2 => key x2 == k)) := by
      intro k _
      by_cases h : key x = k
      · rw [if_pos (by simpa using h), if_pos h, sumBy_cons]
      · rw [if_neg (by simpa using h), if_neg h, zero_add]
    rw [sumBy_congr hpoint, sumBy_add, sumBy_ite_key (key x) (F x) ks hnd,
      sumBy_filter_keys key F ks hnd xs]
    by_cases hmem : key x ∈ ks
    · rw [if_pos hmem, if_pos (by simpa using hmem), sumBy_cons]
    · rw [if_neg hmem, if_neg (by simpa using hmem), zero_add]

/-- A successful module lookup returns a member bearing the key. -/
theorem lookupModule_some {mods : List TimeModule} {k : String} {m : TimeModule}
    (h : lookupModule mods k = some m) : m ∈ mods ∧ m.id = k := by
  unfold lookupModule at h
  have hmem := List.mem_of_find?_eq_some h
  have hp := List.find?_some h
  rw [List.mem_reverse] at hmem
  exact ⟨hmem, by simpa using hp⟩

/-- With duplicate-free ids, looking up a member module's id returns it. -/
theorem lookupModule_self {mods : List TimeModule}
    (hmid : (mods.map TimeModule.id).Nodup) {m : TimeModule} (hm : m ∈ mods) :
    lookupModule mods m.id = some m := by
  cases hl : lookupModule mods m.id with
  | none =>
    unfold lookupModule at hl
    have hfail := List.find?_eq_none.mp hl m (List.mem_reverse.mpr hm)
    simp at hfail
  | some m2 =>
    rcases lookupModule_some hl with ⟨hm2, hid2⟩
    exact congrArg some (List.inj_on_of_nodup_map hmid hm2 hm hid2)

/-- The `totalHours` of joined records, summed over a folder-id filter,
is the per-module sum of entry durations over the same filter. -/
theorem joinSum {fs : List TimeFolder} {se : List TimeEntry} (q : String → Bool) :
    ∀ {mods : List TimeModule} {res : List ModuleWithRelations},
      joinModules fs se mods = .ok res →
      sumBy ModuleWithRelations.totalHours (res.filter (fun w => q w.folderId)) =
        sumBy (fun m => sumBy TimeEntry.durationHours
            (se.filter (fun e => e.moduleId == m.id)))
          (mods.filter (fun m => q m.folderId)) := by
  intro mods
  induction mods with
  | nil =>
    intro res h
    unfold joinModules at h
    cases h
    rfl
  | cons m rest ih =>
    intro res h
    unfold joinModules at h
    cases hl : lookupFolder fs m.folderId with
    | none => rw [hl] at h; cases h
    | some fl =>
      rw [hl] at h
      cases hr : joinModules fs se rest with
      | error msg => rw [hr] at h; cases h
      | ok tail =>
        rw [hr] at h
        cases h
        have hfid : (joinOne se m fl).folderId = m.folderId := rfl
        have htot : (joinOne se m fl).totalHours =
            sumBy TimeEntry.durationHours (se.filter (fun e => e.moduleId == m.id)) := rfl
        simp only [List.filter_cons, hfid]
        by_cases hq : q m.folderId = true
        · rw [if_pos hq, if_pos hq, sumBy_cons, sumBy_cons, htot, ih hr]
        · rw [if_neg hq, if_neg hq, ih hr]

/-- The claim-side subtree predicate selects exactly the entries whose
module id occurs among the subtree-filtered modules. -/
theorem entryInSubtree_iff {mods : List TimeModule}
    (hmid : (mods.map TimeModule.id).Nodup) (t : FolderNode) (e : TimeEntry) :
    entryInSubtree mods t e = true ↔
      e.moduleId ∈ (mods.filter
        (fun m => decide (m.folderId ∈ subtreeIds t))).map TimeModule.id := by
  unfold entryInSubtree
  cases hl : lookupModule mods e.moduleId with
  | none =>
    constructor
    · intro h
      cases h
    · intro hmem
      exfalso
      rcases List.mem_map.mp hmem with ⟨m2, hm2f, hm2id⟩
      have hm2mem := List.mem_of_mem_filter hm2f
      have hself := lookupModule_self hmid hm2mem
      rw [hm2id] at hself
      rw [hself] at hl
      cases hl
  | some m =>
    rcases lookupModule_some hl with ⟨hmmem, hmidq⟩
    simp only [decide_eq_true_eq]
    constructor
    · intro hin
      exact List.mem_map.mpr ⟨m, List.mem_filter.mpr ⟨hmmem, by simpa using hin⟩, hmidq⟩
    · intro hmem
      rcases List.mem_map.mp hmem with ⟨m2, hm2f, hm2id⟩
      have hm2mem := List.mem_of_mem_filter hm2f
      have hm2m : m2 = m := by
        refine List.inj_on_of_nodup_map hmid hm2mem hmmem ?_
        rw [hm2id, hmidq]
      subst hm2m
      have hmf := List.of_mem_filter hm2f
      simpa using hmf

/-- C1: on a well-formed snapshot whose join succeeded, every node of the
built tree totals exactly the durations of the entries whose module's
folder lies in the node's descendant set; an empty subtree totals zero,
and positive durations give a non-negative total. -/
theorem folderNode_totalHours_correct (fs : List TimeFolder)
    (mods : List TimeModule) (entries : List TimeEntry)
    (hwf : WellFormedFolders fs) (hmid : (mods.map TimeModule.id).Nodup)
    (res : List ModuleWithRelations)
    (hj : joinModules fs (entriesSorted entries) mods = .ok res) :
    ∀ t ∈ allNodes (buildFolderTree fs (modulesByFolderId res)),
      FolderNode.totalHours t =
        sumBy TimeEntry.durationHours (entries.filter (entryInSubtree mods t)) ∧
      ((∀ e ∈ entries, entryInSubtree mods t e = false) →
        FolderNode.totalHours t = 0) ∧
      ((∀ e ∈ entries, 0 < e.durationHours) → 0 ≤ FolderNode.totalHours t) := by
  intro t ht
  obtain ⟨hDnd, hsubfs⟩ :=
    subtreeIds_nodup fs (modulesByFolderId res) hwf ht
  have hks2nd : ((mods.filter
      (fun m => decide (m.folderId ∈ subtreeIds t))).map TimeModule.id).Nodup :=
    List.Nodup.sublist ((List.filter_sublist mods).map TimeModule.id) hmid
  have e1 : FolderNode.totalHours t =
      sumBy (fun g => sumBy ModuleWithRelations.totalHours (modulesByFolderId res g.id))
        (collectF [t]) :=
    allNodes_totalHours fs (modulesByFolderId res) (fs.length + 1) none t ht
  have e2 : sumBy (fun g => sumBy ModuleWithRelations.totalHours
        (modulesByFolderId res g.id)) (collectF [t]) =
      sumBy (fun g => sumBy ModuleWithRelations.totalHours
        (res.filter (fun w => w.folderId == g.id))) (collectF [t]) :=
    sumBy_congr (fun g _ =>
      sumBy_perm _ (List.perm_insertionSort moduleByOrder _))
  have e3 : sumBy (fun g => sumBy ModuleWithRelations.totalHours
        (res.filter (fun w => w.folderId == g.id))) (collectF [t]) =
      sumBy (fun k => sumBy ModuleWithRelations.totalHours
        (res.filter (fun w => w.folderId == k))) (subtreeIds t) :=
    (sumBy_map (fun k => sumBy ModuleWithRelations.totalHours
      (res.filter (fun w => w.folderId == k))) TimeFolder.id (collectF [t])).symm
  have e4 := sumBy_filter_keys (fun w : ModuleWithRelations => w.folderId)
    ModuleWithRelations.totalHours (subtreeIds t) hDnd res
  have e5 := joinSum (fun k => decide (k ∈ subtreeIds t)) hj
  have e6 : sumBy (fun m => sumBy TimeEntry.durationHours
        ((entriesSorted entries).filter (fun e => e.moduleId == m.id)))
        (mods.filter (fun m => decide (m.folderId ∈ subtreeIds t))) =
      sumBy (fun k => sumBy TimeEntry.durationHours
        ((entriesSorted entries).filter (fun e => e.moduleId == k)))
        ((mods.filter (fun m => decide (m.folderId ∈ subtreeIds t))).map TimeModule.id) :=
    (sumBy_map (fun k => sumBy TimeEntry.durationHours
        ((entriesSorted entries).filter (fun e => e.moduleId == k)))
      TimeModule.id
      (mods.filter (fun m => decide (m.folderId ∈ subtreeIds t)))).symm
  have e7 := sumBy_filter_keys (fun e : TimeEntry => e.moduleId)
    TimeEntry.durationHours
    ((mods.filter (fun m => decide (m.folderId ∈ subtreeIds t))).map TimeModule.id)
    hks2nd (entriesSorted entries)
  have e8 : sumBy TimeEntry.durationHours
        ((entriesSorted entries).filter (fun e => decide (e.moduleId ∈
          (mods.filter (fun m => decide (m.folderId ∈ subtreeIds t))).map TimeModule.id))) =
      sumBy TimeEntry.durationHours
        (entries.filter (fun e => decide (e.moduleId ∈
          (mods.filter (fun m => decide (m.folderId ∈ subtreeIds t))).map TimeModule.id))) :=
    sumBy_perm _ ((List.perm_insertionSort entryDescTs entries).filter _)
  have e9 : entries.filter (fun e => decide (e.moduleId ∈
        (mods.filter (fun m => decide (m.folderId ∈ subtreeIds t))).map TimeModule.id)) =
      entries.filter (entryInSubtree mods t) := by
    refine List.filter_congr ?_
    intro e _
    by_cases h : entryInSubtree mods t e = true
    · rw [h, decide_eq_true ((entryInSubtree_iff hmid t e).mp h)]
    · have hne : e.moduleId ∉ (mods.filter
          (fun m => decide (m.folderId ∈ subtreeIds t))).map TimeModule.id :=
        fun hmem => h ((entryInSubtree_iff hmid t e).mpr hmem)
      rw [decide_eq_false hne]
      cases hb : entryInSubtree mods t e with
      | false => rfl
      | true => exact absurd hb h
  have hmain : FolderNode.totalHours t =
      sumBy TimeEntry.durationHours (entries.filter (entryInSubtree mods t)) := by
    rw [e1, e2, e3, e4, e5, e6, e7, e8, e9]
  refine ⟨hmain, ?_, ?_⟩
  · intro hempty
    rw [hmain, List.filter_eq_nil.mpr ?_]
    · rfl
    · intro e he
      rw [hempty e he]
      simp
  · intro hpos
    rw [hmain, sumBy_eq]
    refine List.sum_nonneg ?_
    intro x hx
    rcases List.mem_map.mp hx with ⟨e, he, rfl⟩
    exact le_of_lt (hpos e (List.mem_of_mem_filter he))

/-- Witness for `folderNode_totalHours_correct`: the single-folder fixture
snapshot, evaluated at its root node. -/
theorem folderNode_totalHours_witness :
    FolderNode.totalHours exNodeA =
      sumBy TimeEntry.durationHours
        (exEntries.filter (entryInSubtree [exModuleA] exNodeA)) := by
  have h := folderNode_totalHours_correct [exFolderA] [exModuleA] exEntries
    (by decide) (by decide) exRes rfl
  have hmem : exNodeA ∈ allNodes (buildFolderTree [exFolderA] (modulesByFolderId exRes)) := by
    rw [show buildFolderTree [exFolderA] (modulesByFolderId exRes) = [exNodeA] from rfl]
    rw [show allNodes [exNodeA] = [exNodeA] from by simp [allNodes, exNodeA]]
    exact List.mem_cons_self _ _
  exact (h exNodeA hmem).1

/-- Elements of the right list of a `Forall₂` are related to some element
of the left list. -/
theorem forallTwo_mem_right {α β : Type} {R : α → β → Prop} :
    ∀ {l₁ : List α} {l₂ : List β}, List.Forall₂ R l₁ l₂ →
      ∀ b ∈ l₂, ∃ a ∈ l₁, R a b := by
  intro l₁ l₂ h
  induction h with
  | nil => intro b hb; cases hb
  | cons hR _ ih =>
    intro b hb
    rcases List.mem_cons.mp hb with rfl | hb
    · exact ⟨_, List.mem_cons_self _ _, hR⟩
    · rcases ih b hb with ⟨a, ha, hRa⟩
      exact ⟨a, List.mem_cons_of_mem _ ha, hRa⟩

/-- A successful join relates the input modules elementwise to the
produced records: each record is `joinOne` of its module and the folder
its `folderId` resolves to. -/
theorem joinModules_ok_forall₂ {fs : List TimeFolder} {se : List TimeEntry} :
    ∀ {mods : List TimeModule} {res : List ModuleWithRelations},
      joinModules fs se mods = .ok res →
      List.Forall₂ (fun m w => ∃ fl, lookupFolder fs m.folderId = some fl ∧
        w = joinOne se m fl) mods res := by
  intro mods
  induction mods with
  | nil =>
    intro res h
    unfold joinModules at h
    cases h
    exact List.Forall₂.nil
  | cons m rest ih =>
    intro res h
    unfold joinModules at h
    cases hl : lookupFolder fs m.folderId with
    | none => rw [hl] at h; cases h
    | some fl =>
      rw [hl] at h
      cases hr : joinModules fs se rest with
      | error msg => rw [hr] at h; cases h
      | ok tail =>
        rw [hr] at h
        cases h
        exact List.Forall₂.cons ⟨fl, hl, rfl⟩ (ih hr)

/-- When every module's folder resolves, the join succeeds. -/
theorem joinModules_ok_of_resolves {fs : List TimeFolder} {se : List TimeEntry} :
    ∀ {mods : List TimeModule},
      (∀ m ∈ mods, (lookupFolder fs m.folderId).isSome) →
      ∃ res, joinModules fs se mods = .ok res := by
  intro mods
  induction mods with
  | nil => intro _; exact ⟨[], rfl⟩
  | cons m rest ih =>
    intro h
    rcases Option.isSome_iff_exists.mp (h m (List.mem_cons_self _ _)) with ⟨fl, hfl⟩
    rcases ih (fun m' hm' => h m' (List.mem_cons_of_mem _ hm')) with ⟨tail, htail⟩
    refine ⟨joinOne se m fl :: tail, ?_⟩
    unfold joinModules
    rw [hfl, htail]

/-- When some module's folder is missing, the join aborts with the
`Ordner mit ID … nicht gefunden` error of the first such module. -/
theorem joinModules_error_of_missing {fs : List TimeFolder} {se : List TimeEntry} :
    ∀ {mods : List TimeModule},
      (∃ m ∈ mods, lookupFolder fs m.folderId = none) →
      ∃ m₀ ∈ mods, lookupFolder fs m₀.folderId = none ∧
        joinModules fs se mods =
          .error ("Ordner mit ID " ++ m₀.folderId ++ " nicht gefunden") := by
  intro mods
  induction mods with
  | nil => rintro ⟨m, hm, _⟩; cases hm
  | cons m rest ih =>
    rintro ⟨m', hm', hnone⟩
    cases hl : lookupFolder fs m.folderId with
    | none =>
      refine ⟨m, List.mem_cons_self _ _, hl, ?_⟩
      unfold joinModules
      rw [hl]
    | some fl =>
      have hm'rest : m' ∈ rest := by
        rcases List.mem_cons.mp hm' with rfl | h
        · rw [hl] at hnone; cases hnone
        · exact h
      rcases ih ⟨m', hm'rest, hnone⟩ with ⟨m₀, hm₀, hn₀, herr⟩
      refine ⟨m₀, List.mem_cons_of_mem _ hm₀, hn₀, ?_⟩
      unfold joinModules
      rw [hl, herr]

/-- C4: a snapshot containing a module whose `folderId` matches no folder
makes the join derivation abort with the missing-folder data-integrity
error (never a record with an absent folder, never a dropped module), and
conversely the derivation succeeds whenever every `folderId` resolves. -/
theorem moduleJoin_missing_folder (fs : List TimeFolder) (mods : List TimeModule)
    (entries : List TimeEntry) :
    ((∃ m ∈ mods, lookupFolder fs m.folderId = none) →
      ∃ m₀ ∈ mods, lookupFolder fs m₀.folderId = none ∧
        joinModules fs (entriesSorted entries) mods =
          .error ("Ordner mit ID " ++ m₀.folderId ++ " nicht gefunden")) ∧
    ((∀ m ∈ mods, (lookupFolder fs m.folderId).isSome) →
      ∃ res, joinModules fs (entriesSorted entries) mods = .ok res) :=
  ⟨joinModules_error_of_missing, joinModules_ok_of_resolves⟩

/-- Witness for `moduleJoin_missing_folder`: one orphaned module aborts
the join with the missing-folder message, and a resolvable one succeeds. -/
theorem moduleJoin_missing_folder_witness :
    joinModules [exFolderA] (entriesSorted []) [exModuleOrphan] =
      .error ("Ordner mit ID " ++ "zzz" ++ " nicht gefunden") ∧
    joinModules [exFolderA] (entriesSorted []) [exModuleA] =
      .ok [joinOne (entriesSorted []) exModuleA exFolderA] := by
  constructor
  · obtain ⟨m0, hm0, _, herr⟩ := (moduleJoin_missing_folder [exFolderA] [exModuleOrphan] []).1
      ⟨exModuleOrphan, List.mem_cons_self _ _, by decide⟩
    have hm0e : m0 = exModuleOrphan := by
      rcases List.mem_cons.mp hm0 with h | h
      · exact h
      · cases h
    rw [hm0e] at herr
    exact herr
  · rfl

/-- C3: under a successful join every produced record has `totalHours`
equal to the sum of `durationHours` over exactly the snapshot entries with
its module id, and its entry list is sorted by timestamp descending and is
a subsequence of the global timestamp-descending entry list. -/
theorem moduleJoin_integrity (fs : List TimeFolder) (mods : List TimeModule)
    (entries : List TimeEntry) (res : List ModuleWithRelations)
    (hj : joinModules fs (entriesSorted entries) mods = .ok res) :
    ∀ w ∈ res,
      w.totalHours = sumBy TimeEntry.durationHours
          (entries.filter (fun e => e.moduleId == w.id)) ∧
      List.Pairwise (fun a b : TimeEntry => b.timestamp ≤ a.timestamp) w.entries ∧
      w.entries.Sublist (entriesSorted entries) := by
  intro w hw
  rcases forallTwo_mem_right (joinModules_ok_forall₂ hj) w hw with ⟨m, _, fl, _, rfl⟩
  have hent : (joinOne (entriesSorted entries) m fl).entries =
      (entriesSorted entries).filter (fun e => e.moduleId == m.id) := rfl
  have hid : (joinOne (entriesSorted entries) m fl).id = m.id := rfl
  refine ⟨?_, ?_, ?_⟩
  · show sumBy TimeEntry.durationHours
        ((entriesSorted entries).filter (fun e => e.moduleId == m.id)) = _
    rw [hid]
    exact sumBy_perm _ ((List.perm_insertionSort entryDescTs entries).filter _)
  · rw [hent]
    have hsorted : List.Pairwise entryDescTs (entriesSorted entries) :=
      List.sorted_insertionSort entryDescTs entries
    exact ((hsorted.sublist (List.filter_sublist _)).imp
      (fun h => (entryDescTs_iff _ _).mp h))
  · rw [hent]
    exact List.filter_sublist _

/-- Witness for `moduleJoin_integrity` at the fixture snapshot, applied
to its single joined record. -/
theorem moduleJoin_integrity_witness :
    (joinOne (entriesSorted exEntries) exModuleA exFolderA).totalHours =
      sumBy TimeEntry.durationHours (exEntries.filter
        (fun e => e.moduleId == (joinOne (entriesSorted exEntries) exModuleA exFolderA).id)) ∧
    List.Pairwise (fun a b : TimeEntry => b.timestamp ≤ a.timestamp)
      (joinOne (entriesSorted exEntries) exModuleA exFolderA).entries ∧
    (joinOne (entriesSorted exEntries) exModuleA exFolderA).entries.Sublist
      (entriesSorted exEntries) :=
  moduleJoin_integrity [exFolderA] [exModuleA] exEntries
    [joinOne (entriesSorted exEntries) exModuleA exFolderA] rfl
    (joinOne (entriesSorted exEntries) exModuleA exFolderA) (List.mem_cons_self _ _)

/-- C8: every mutating store operation without an authenticated user
fails with its authorization error, attempts no network call and leaves
the snapshot untouched; and every remote failure surfaces the remote
error and leaves the snapshot untouched. -/
theorem store_auth_and_failure_frame :
    (∀ (s : TimeTrackingState) (r : Except String TimeFolder),
      Store.addFolder none r s =
        (.error "Bitte melde dich an, um Ordner anzulegen.", s, false)) ∧
    (∀ s id (r : Except String TimeFolder),
      Store.updateFolder none id r s =
        (.error "Bitte melde dich an, um Ordner zu bearbeiten.", s, false)) ∧
    (∀ s rf (r : Except String Unit),
      Store.deleteFolder none r rf s =
        (.error "Bitte melde dich an, um Ordner zu loeschen.", s, false)) ∧
    (∀ (s : TimeTrackingState) (r : Except String TimeModule),
      Store.addModule none r s =
        (.error "Bitte melde dich an, um Module anzulegen.", s, false)) ∧
    (∀ s id (r : Except String TimeModule),
      Store.updateModule none id r s =
        (.error "Bitte melde dich an, um Module zu bearbeiten.", s, false)) ∧
    (∀ s rf (r : Except String Unit),
      Store.deleteModule none r rf s =
        (.error "Bitte melde dich an, um Module zu loeschen.", s, false)) ∧
    (∀ (s : TimeTrackingState) (r : Except String TimeEntry),
      Store.addEntry none r s =
        (.error "Bitte melde dich an, um Eintraege zu erstellen.", s, false)) ∧
    (∀ s id (r : Except String TimeEntry),
      Store.updateEntry none id r s =
        (.error "Bitte melde dich an, um Eintraege zu aktualisieren.", s, false)) ∧
    (∀ s id (r : Except String Unit),
      Store.deleteEntry none id r s =
        (.error "Bitte melde dich an, um Eintraege zu loeschen.", s, false)) ∧
    (∀ s msg, Store.addFolder (some ()) (.error msg) s = (.error msg, s, true)) ∧
    (∀ s id msg, Store.updateFolder (some ()) id (.error msg) s = (.error msg, s, true)) ∧
    (∀ s rf msg, Store.deleteFolder (some ()) (.error msg) rf s = (.error msg, s, true)) ∧
    (∀ s msg, Store.addModule (some ()) (.error msg) s = (.error msg, s, true)) ∧
    (∀ s id msg, Store.updateModule (some ()) id (.error msg) s = (.error msg, s, true)) ∧
    (∀ s rf msg, Store.deleteModule (some ()) (.error msg) rf s = (.error msg, s, true)) ∧
    (∀ s msg, Store.addEntry (some ()) (.error msg) s = (.error msg, s, true)) ∧
    (∀ s id msg, Store.updateEntry (some ()) id (.error msg) s = (.error msg, s, true)) ∧
    (∀ s id msg, Store.deleteEntry (some ()) id (.error msg) s = (.error msg, s, true)) := by
  refine ⟨?_, ?_, ?_, ?_, ?_, ?_, ?_, ?_, ?_, ?_, ?_, ?_, ?_, ?_, ?_, ?_, ?_, ?_⟩
  all_goals intros
  all_goals rfl

/-- C9: successful mutations reconcile the snapshot leaving the other two
collections unchanged — a created entry is prepended, a created folder or
module is appended, an update replaces exactly the id-matching elements in
place (same length, same positions, all other elements untouched), and a
deleted entry is removed from the entries list keeping every other entry. -/
theorem store_success_reconciliation :
    (∀ s f, Store.addFolder (some ()) (.ok f) s =
      (.ok f, { s with folders := s.folders ++ [f] }, true)) ∧
    (∀ s m, Store.addModule (some ()) (.ok m) s =
      (.ok m, { s with modules := s.modules ++ [m] }, true)) ∧
    (∀ s e, Store.addEntry (some ()) (.ok e) s =
      (.ok e, { s with entries := e :: s.entries }, true)) ∧
    (∀ s id f',
      ((Store.updateFolder (some ()) id (.ok f') s).2.1.modules = s.modules ∧
        (Store.updateFolder (some ()) id (.ok f') s).2.1.entries = s.entries) ∧
      (Store.updateFolder (some ()) id (.ok f') s).2.1.folders.length = s.folders.length ∧
      (∀ (i : Nat) g, s.folders[i]? = some g →
        (Store.updateFolder (some ()) id (.ok f') s).2.1.folders[i]? =
          some (if g.id = id then f' else g))) ∧
    (∀ s id m',
      ((Store.updateModule (some ()) id (.ok m') s).2.1.folders = s.folders ∧
        (Store.updateModule (some ()) id (.ok m') s).2.1.entries = s.entries) ∧
      (Store.updateModule (some ()) id (.ok m') s).2.1.modules.length = s.modules.length ∧
      (∀ (i : Nat) g, s.modules[i]? = some g →
        (Store.updateModule (some ()) id (.ok m') s).2.1.modules[i]? =
          some (if g.id = id then m' else g))) ∧
    (∀ s id e',
      ((Store.updateEntry (some ()) id (.ok e') s).2.1.folders = s.folders ∧
        (Store.updateEntry (some ()) id (.ok e') s).2.1.modules = s.modules) ∧
      (Store.updateEntry (some ()) id (.ok e') s).2.1.entries.length = s.entries.length ∧
      (∀ (i : Nat) g, s.entries[i]? = some g →
        (Store.updateEntry (some ()) id (.ok e') s).2.1.entries[i]? =
          some (if g.id = id then e' else g))) ∧
    (∀ s id,
      ((Store.deleteEntry (some ()) id (.ok ()) s).2.1.folders = s.folders ∧
        (Store.deleteEntry (some ()) id (.ok ()) s).2.1.modules = s.modules) ∧
      (Store.deleteEntry (some ()) id (.ok ()) s).2.1.entries =
        s.entries.filter (fun e => e.id != id) ∧
      (∀ e, e ∈ (Store.deleteEntry (some ()) id (.ok ()) s).2.1.entries ↔
        (e ∈ s.entries ∧ e.id ≠ id))) := by
  refine ⟨fun _ _ => rfl, fun _ _ => rfl, fun _ _ => rfl, ?_, ?_, ?_, ?_⟩
  · intro s id f'
    refine ⟨⟨rfl, rfl⟩, by simp [Store.updateFolder], ?_⟩
    intro i g hg
    show (s.folders.map (fun f => if f.id = id then f' else f))[i]? = _
    rw [List.getElem?_map, hg]
    rfl
  · intro s id m'
    refine ⟨⟨rfl, rfl⟩, by simp [Store.updateModule], ?_⟩
    intro i g hg
    show (s.modules.map (fun m => if m.id = id then m' else m))[i]? = _
    rw [List.getElem?_map, hg]
    rfl
  · intro s id e'
    refine ⟨⟨rfl, rfl⟩, by simp [Store.updateEntry], ?_⟩
    intro i g hg
    show (s.entries.map (fun e => if e.id = id then e' else e))[i]? = _
    rw [List.getElem?_map, hg]
    rfl
  · intro s id
    refine ⟨⟨rfl, rfl⟩, rfl, ?_⟩
    intro e
    show e ∈ s.entries.filter (fun e => e.id != id) ↔ _
    rw [List.mem_filter]
    simp [bne_iff_ne]

/-- Witness for the update/delete reconciliation facts of
`store_success_reconciliation` at a concrete snapshot. -/
theorem store_success_reconciliation_witness :
    (Store.updateFolder (some ()) "a" (.ok { id := "a", name := "N", parentId := none, order := 0 })
      { folders := [{ id := "a", name := "M", parentId := none, order := 0 }],
        modules := [], entries := [] }).2.1.folders[0]? =
      some { id := "a", name := "N", parentId := none, order := 0 } := by
  have h := store_success_reconciliation.2.2.2.1
    { folders := [{ id := "a", name := "M", parentId := none, order := 0 }],
      modules := [], entries := [] } "a"
    { id := "a", name := "N", parentId := none, order := 0 }
  have h2 := h.2.2 0 { id := "a", name := "M", parentId := none, order := 0 } rfl
  simpa using h2

/-- Helper for C5: the source traversal agrees with the amended traversal
at every call whose `parentPath` is empty if its depth is 0; recursive
calls preserve that invariant. -/
theorem flattenTraverse_eq_amended :
    ∀ (ts : List FolderNode) (p : String) (d : Nat), (d = 0 → p = "") →
      flattenTraverse ts p d = flattenAmended ts p d := by
  intro ts
  induction ts using FolderNode.inductionList with
  | nil =>
    intro p d h
    simp [flattenTraverse, flattenAmended]
  | cons f cs ms t rest ihcs ihrest =>
    intro p d h
    have hpath : (if p = "" then f.name else p ++ " / " ++ f.name) =
        (if d = 0 ∨ p = "" then f.name else p ++ " / " ++ f.name) := by
      by_cases hd : d = 0
      · rw [h hd]
        simp
      · simp [hd]
    simp only [flattenTraverse, flattenAmended]
    rw [hpath, ihcs _ (d + 1) (fun h0 => absurd h0 (Nat.succ_ne_zero d)),
      ihrest p d h]

/-- C5 (corrected): `flattenedFolders` emits one record per node in a
pre-order, sibling-order-respecting walk in which `depth` increases by 1
from parent to child, `parentId` is the folder's `parentId`, and `path`
is the parent's emitted path joined with `" / "` — except at depth 0 and
whenever the parent's emitted path is the empty string, where it is the
bare name. -/
theorem flattenedFolders_paths (ts : List FolderNode) :
    flattenedFolders ts = flattenAmended ts "" 0 :=
  flattenTraverse_eq_amended ts "" 0 (fun _ => rfl)

/-- C5 counterexample: with a root folder named `""`, the child's emitted
path is its bare name `"B"`, not `" / B"` as the spec's path rule
(parent's emitted path + `" / "` + name away from depth 0) would give. -/
theorem flattenedFolders_path_counterexample :
    flattenedFolders (buildFolderTree exFoldersEmptyName (fun _ => [])) ≠
      flattenClaim (buildFolderTree exFoldersEmptyName (fun _ => [])) "" 0 := by
  have htree : buildFolderTree exFoldersEmptyName (fun _ => []) =
      [FolderNode.node ⟨"r", "", none, 0⟩
        [FolderNode.node ⟨"c", "B", some "r", 0⟩ [] [] (0 + 0)] []
        (0 + (0 + (0 + 0)))] := rfl
  simp only [flattenedFolders]
  rw [htree]
  simp [flattenTraverse, flattenClaim]

/-- Membership in `addUnique`: the accumulator grown by one id. -/
theorem mem_addUnique {acc : List String} {y x : String} :
    x ∈ addUnique acc y ↔ x ∈ acc ∨ x = y := by
  unfold addUnique
  by_cases h : y ∈ acc
  · rw [if_pos h]
    constructor
    · exact Or.inl
    · rintro (hx | rfl)
      · exact hx
      · exact h
  · rw [if_neg h]
    simp [List.mem_append]

/-- Membership in `addAllUnique`: the accumulator grown by a list of ids. -/
theorem mem_addAllUnique :
    ∀ (l acc : List String) (x : String),
      x ∈ addAllUnique acc l ↔ x ∈ acc ∨ x ∈ l := by
  intro l
  induction l with
  | nil =>
    intro acc x
    simp [addAllUnique]
  | cons y ys ih =>
    intro acc x
    rw [show addAllUnique acc (y :: ys) = addAllUnique (addUnique acc y) ys from by
        simp [addAllUnique],
      ih, mem_addUnique]
    simp only [List.mem_cons]
    tauto

/-- Membership in the concatenated descendant sets of a forest: exactly
the ids of the folders collected from the forest. -/
theorem mem_descSetsConcat :
    ∀ (ts : List FolderNode) (x : String),
      x ∈ descSetsConcat ts ↔ ∃ g ∈ collectF ts, g.id = x := by
  intro ts
  induction ts using FolderNode.inductionList with
  | nil =>
    intro x
    simp [descSetsConcat, collectF]
  | cons f cs ms t rest ihcs ihrest =>
    intro x
    rw [show descSetsConcat (FolderNode.node f cs ms t :: rest) =
        FolderNode.descSet (FolderNode.node f cs ms t) ++ descSetsConcat rest from by
        simp [descSetsConcat],
      show FolderNode.descSet (FolderNode.node f cs ms t) =
        addAllUnique [f.id] (descSetsConcat cs) from by
        simp [FolderNode.descSet],
      show collectF (FolderNode.node f cs ms t :: rest) =
        f :: (collectF cs ++ collectF rest) from by
        simp [collectF]]
    rw [List.mem_append, mem_addAllUnique, ihcs, ihrest]
    constructor
    · rintro ((hf | ⟨g, hg, hgx⟩) | ⟨g, hg, hgx⟩)
      · exact ⟨f, List.mem_cons_self _ _, (List.mem_singleton.mp hf).symm⟩
      · exact ⟨g, List.mem_cons.mpr (Or.inr (List.mem_append.mpr (Or.inl hg))), hgx⟩
      · exact ⟨g, List.mem_cons.mpr (Or.inr (List.mem_append.mpr (Or.inr hg))), hgx⟩
    · rintro ⟨g, hg, hgx⟩
      rcases List.mem_cons.mp hg with rfl | hg2
      · exact Or.inl (Or.inl (List.mem_singleton.mpr hgx.symm))
      · rcases List.mem_append.mp hg2 with hg3 | hg3
        · exact Or.inl (Or.inr ⟨g, hg3, hgx⟩)
        · exact Or.inr ⟨g, hg3, hgx⟩

/-- `computeDescendants` returns exactly the ids of the node's subtree. -/
theorem mem_descSet_iff (t : FolderNode) (x : String) :
    x ∈ FolderNode.descSet t ↔ ∃ g ∈ collectF [t], g.id = x := by
  cases t with
  | node f cs ms tot =>
    rw [show FolderNode.descSet (FolderNode.node f cs ms tot) =
        addAllUnique [f.id] (descSetsConcat cs) from by
        simp [FolderNode.descSet],
      mem_addAllUnique, mem_descSetsConcat, collectF_single]
    simp only [FolderNode.folder, FolderNode.children, List.mem_cons,
      List.not_mem_nil, or_false]
    constructor
    · rintro (hf | ⟨g, hg, hgx⟩)
      · exact ⟨f, Or.inl rfl, hf.symm⟩
      · exact ⟨g, Or.inr hg, hgx⟩
    · rintro ⟨g, rfl | hg, hgx⟩
      · exact Or.inl hgx.symm
      · exact Or.inr ⟨g, hg, hgx⟩

/-- The association list `descPairs` holds one pair per tree node: the
node's folder id keyed to its computed descendant set. -/
theorem mem_descPairs :
    ∀ (ts : List FolderNode) (pr : String × List String),
      pr ∈ descPairs ts ↔ ∃ t ∈ allNodes ts,
        pr = ((FolderNode.folder t).id, FolderNode.descSet t) := by
  intro ts
  induction ts using FolderNode.inductionList with
  | nil =>
    intro pr
    simp [descPairs, allNodes]
  | cons f cs ms t rest ihcs ihrest =>
    intro pr
    rw [show descPairs (FolderNode.node f cs ms t :: rest) =
        descPairs cs ++ [((FolderNode.node f cs ms t).folder.id,
          (FolderNode.node f cs ms t).descSet)] ++ descPairs rest from by
        simp [descPairs],
      show allNodes (FolderNode.node f cs ms t :: rest) =
        FolderNode.node f cs ms t :: (allNodes cs ++ allNodes rest) from by
        simp [allNodes]]
    simp only [List.mem_append, List.mem_cons, List.not_mem_nil, or_false]
    rw [ihcs, ihrest]
    constructor
    · rintro ((⟨u, hu, hpr⟩ | hpr) | ⟨u, hu, hpr⟩)
      · exact ⟨u, Or.inr (Or.inl hu), hpr⟩
      · exact ⟨FolderNode.node f cs ms t, Or.inl rfl, hpr⟩
      · exact ⟨u, Or.inr (Or.inr hu), hpr⟩
    · rintro ⟨u, hu, hpr⟩
      rcases hu with rfl | hu2
      · exact Or.inl (Or.inr hpr)
      · rcases hu2 with hu3 | hu3
        · exact Or.inl (Or.inl ⟨u, hu3, hpr⟩)
        · exact Or.inr ⟨u, hu3, hpr⟩

/-- The keys of `descPairs` are a permutation of the folders collected
from the forest (post-order versus pre-order). -/
theorem descPairs_keys :
    ∀ ts : List FolderNode,
      ((descPairs ts).map Prod.fst).Perm ((collectF ts).map TimeFolder.id) := by
  intro ts
  induction ts using FolderNode.inductionList with
  | nil =>
    simp [descPairs, collectF]
  | cons f cs ms t rest ihcs ihrest =>
    rw [show descPairs (FolderNode.node f cs ms t :: rest) =
        descPairs cs ++ [((FolderNode.node f cs ms t).folder.id,
          (FolderNode.node f cs ms t).descSet)] ++ descPairs rest from by
        simp [descPairs],
      show collectF (FolderNode.node f cs ms t :: rest) =
        f :: (collectF cs ++ collectF rest) from by
        simp [collectF]]
    simp only [List.map_append, List.map_cons, List.map_nil]
    refine List.Perm.trans (List.Perm.append_right _ List.perm_append_comm) ?_
    rw [show ([((FolderNode.node f cs ms t).folder.id,
          (FolderNode.node f cs ms t).descSet).1] ++
        (descPairs cs).map Prod.fst) ++ (descPairs rest).map Prod.fst =
      ((FolderNode.node f cs ms t).folder.id,
          (FolderNode.node f cs ms t).descSet).1 ::
        ((descPairs cs).map Prod.fst ++ (descPairs rest).map Prod.fst) from by
      simp]
    exact List.Perm.cons _ (List.Perm.append ihcs ihrest)

/-- A folder appears among the folders of a built forest exactly when the
forest's root pointer occurs in the first `n` links of the folder's
ancestor chain. -/
theorem mem_collectF_build_iff (fs : List TimeFolder)
    (mbf : String → List ModuleWithRelations)
    (hid : (fs.map TimeFolder.id).Nodup)
    {g : TimeFolder} (hg : g ∈ fs) {N : Nat} {L : List (Option String)}
    (hL : upChain fs N g.parentId = some L) (n : Nat) (pid : Option String) :
    g ∈ collectF (build fs mbf n pid) ↔ pid ∈ L.take n := by
  rw [collectF_eq_map_fst 0]
  constructor
  · intro hmem
    obtain ⟨⟨g2, d⟩, hpd, h2⟩ := List.mem_map.mp hmem
    have hg2 : g2 = g := h2
    subst hg2
    have hpos : 0 < List.count (g2, d) (collectD 0 (build fs mbf n pid)) :=
      List.count_pos_iff.mpr hpd
    rw [count_collectD_build fs mbf hid hg hL n pid 0 d] at hpos
    by_cases hcond : pid ∈ L.take n ∧ d = 0 + L.indexOf pid
    · exact hcond.1
    · rw [if_neg hcond] at hpos
      exact absurd hpos (lt_irrefl 0)
  · intro htk
    have hc := count_collectD_build fs mbf hid hg hL n pid 0 (0 + L.indexOf pid)
    rw [if_pos ⟨htk, rfl⟩] at hc
    have hmem : (g, 0 + L.indexOf pid) ∈ collectD 0 (build fs mbf n pid) :=
      List.count_pos_iff.mp (by omega)
    simpa using List.mem_map_of_mem Prod.fst hmem

/-- A folder of a well-formed snapshot lies in the subtree of a tree node
exactly when the node's id occurs on the folder's ancestor chain
(including the folder itself at the head). -/
theorem mem_subtree_iff_chain (fs : List TimeFolder)
    (mbf : String → List ModuleWithRelations) (hwf : WellFormedFolders fs)
    {t : FolderNode} (ht : t ∈ allNodes (buildFolderTree fs mbf))
    {g : TimeFolder} (hg : g ∈ fs) {Lg : List (Option String)}
    (hLg : upChain fs (fs.length + 2) (some g.id) = some Lg) :
    g ∈ collectF [t] ↔ some (FolderNode.folder t).id ∈ Lg := by
  obtain ⟨hid, hres⟩ := hwf
  obtain ⟨g2, T, hlook, hLgeq, hT⟩ := upChain_some_elim hLg
  have hg2 : g2 = g := by
    obtain ⟨hg2fs, hg2id⟩ := lookupFolder_some hlook
    exact List.inj_on_of_nodup_map hid hg2fs hg hg2id
  subst hg2
  have hnone : upChain fs (0 + 1) none = some [none] := rfl
  obtain ⟨N2, L2, hL2, hchild, _, _⟩ :=
    allNodes_build_spec fs mbf hid (fs.length + 1) hnone rfl t ht
  rw [collectF_single t, hchild, hLgeq]
  constructor
  · intro hmem
    rcases List.mem_cons.mp hmem with heq | hrec
    · exact List.mem_cons.mpr (Or.inl (by rw [heq]))
    · have htk := (mem_collectF_build_iff fs mbf hid hg hT _ _).mp hrec
      exact List.mem_cons.mpr (Or.inr (List.take_subset _ _ htk))
  · intro hmem
    rcases List.mem_cons.mp hmem with heq | hrec
    · have hids : (FolderNode.folder t).id = g2.id := Option.some_injective _ heq
      have htf : FolderNode.folder t ∈ collectF (buildFolderTree fs mbf) :=
        collectF_mem_iff.mpr ⟨t, ht, rfl⟩
      have htfs : FolderNode.folder t ∈ fs :=
        (collectF_tree_nodup fs mbf ⟨hid, hres⟩).2 _ htf
      have heqf : FolderNode.folder t = g2 :=
        List.inj_on_of_nodup_map hid htfs hg hids
      exact List.mem_cons.mpr (Or.inl heqf.symm)
    · have hget := getElem?_indexOf_self hrec
      obtain ⟨hlt, hgeteq⟩ := List.getElem?_eq_some.mp hget
      have hsub := upChain_get (T.indexOf (some (FolderNode.folder t).id)) hT hlt
      rw [show T.get ⟨T.indexOf (some (FolderNode.folder t).id), hlt⟩ =
          some (FolderNode.folder t).id from by
        rw [List.get_eq_getElem]
        exact hgeteq] at hsub
      have hL2eq : L2 = T.drop (T.indexOf (some (FolderNode.folder t).id)) :=
        upChain_det hL2 hsub
      have hTlen : T.length ≤ fs.length + 1 := upChain_length_le hT
      have hdl : (T.drop (T.indexOf (some (FolderNode.folder t).id))).length =
          T.length - T.indexOf (some (FolderNode.folder t).id) :=
        List.length_drop _ _
      have hidxlt : T.indexOf (some (FolderNode.folder t).id) <
          fs.length + 2 - L2.length := by
        rw [hL2eq, hdl]
        omega
      have htk : some (FolderNode.folder t).id ∈
          T.take (fs.length + 2 - L2.length) :=
        mem_take_of_indexOf_lt hrec hidxlt
      exact List.mem_cons.mpr
        (Or.inr ((mem_collectF_build_iff fs mbf hid hg hT _ _).mpr htk))

/-- C6 (corrected: requires a well-formed folder list — duplicate-free
ids and acyclic, resolvable `parentId` chains; a folder whose `parentId`
matches no folder is silently excluded, see the counterexample): the
descendant index has exactly one key per folder of the snapshot, and the
set stored under a key holds exactly that folder's id together with the
ids of every folder whose ancestor chain passes through it. -/
theorem folderDescendants_correct (fs : List TimeFolder)
    (mbf : String → List ModuleWithRelations) (hwf : WellFormedFolders fs) :
    ((descPairs (buildFolderTree fs mbf)).map Prod.fst).Perm
      (fs.map TimeFolder.id) ∧
    ∀ pr ∈ descPairs (buildFolderTree fs mbf), ∀ x : String,
      x ∈ pr.2 ↔ ∃ g ∈ fs, g.id = x ∧
        ∃ Lg, upChain fs (fs.length + 2) (some g.id) = some Lg ∧
          some pr.1 ∈ Lg := by
  constructor
  · refine (descPairs_keys _).trans (List.Perm.map _ ?_)
    refine (List.perm_iff_count).mpr ?_
    intro f
    by_cases hf : f ∈ fs
    · rw [count_collectF_tree fs mbf hwf f hf,
        List.count_eq_one_of_mem (List.Nodup.of_map _ hwf.1) hf]
    · rw [List.count_eq_zero_of_not_mem, List.count_eq_zero_of_not_mem hf]
      intro hmem
      exact hf ((collectF_tree_nodup fs mbf hwf).2 f hmem)
  · intro pr hpr x
    obtain ⟨t, ht, hpreq⟩ := (mem_descPairs _ pr).mp hpr
    subst hpreq
    rw [show (((FolderNode.folder t).id, FolderNode.descSet t) :
        String × List String).2 = FolderNode.descSet t from rfl,
      mem_descSet_iff]
    constructor
    · rintro ⟨g, hgct, hgx⟩
      have hgfs : g ∈ fs := (subtreeIds_nodup fs mbf hwf ht).2 g hgct
      obtain ⟨T, hT⟩ := Option.isSome_iff_exists.mp (hwf.2 g hgfs)
      have hLg := upChain_child hwf.1 hT hgfs rfl
      refine ⟨g, hgfs, hgx, some g.id :: T, hLg, ?_⟩
      exact (mem_subtree_iff_chain fs mbf hwf ht hgfs hLg).mp hgct
    · rintro ⟨g, hgfs, hgx, Lg, hLg, hmem⟩
      exact ⟨g, (mem_subtree_iff_chain fs mbf hwf ht hgfs hLg).mpr hmem, hgx⟩

/-- Witness for `folderDescendants_correct`: on the fixture snapshot the
index keys are a permutation of the three folder ids. -/
theorem folderDescendants_correct_witness :
    ((descPairs (buildFolderTree exFolders (fun _ => []))).map Prod.fst).Perm
      (exFolders.map TimeFolder.id) :=
  (folderDescendants_correct exFolders (fun _ => []) (by decide)).1

/-- C6 counterexample: a folder whose `parentId` matches no folder in the
list never enters the built tree, so the descendant index has no key for
it — the index does not cover every folder id of an arbitrary list. -/
theorem folderDescendants_counterexample :
    descPairs (buildFolderTree [⟨"o", "O", some "zzz", 0⟩] (fun _ => [])) = [] ∧
    ([⟨"o", "O", some "zzz", 0⟩] : List TimeFolder).map TimeFolder.id = ["o"] := by
  constructor
  · rw [show buildFolderTree [⟨"o", "O", some "zzz", 0⟩] (fun _ => []) =
        ([] : List FolderNode) from rfl]
    simp [descPairs]
  · rfl

/-- C10: `totalTrackedHours` sums over the raw entry list, splitting into
the entries whose `moduleId` resolves against the snapshot modules and
those whose `moduleId` matches no module — the unmatched ones are counted
too; an unmatched entry appears in no joined module record; and on the
fixture snapshot (entry `e2` references the absent module `m2`) the
derived total strictly exceeds the sum of the root nodes' `totalHours`. -/
theorem totalTrackedHours_includes_unmatched (fs : List TimeFolder)
    (mods : List TimeModule) (entries : List TimeEntry)
    (res : List ModuleWithRelations)
    (hj : joinModules fs (entriesSorted entries) mods = .ok res) :
    (totalTrackedHours entries =
      sumBy TimeEntry.durationHours
        (entries.filter (fun e => (lookupModule mods e.moduleId).isSome)) +
      sumBy TimeEntry.durationHours
        (entries.filter (fun e => !(lookupModule mods e.moduleId).isSome))) ∧
    (∀ e : TimeEntry, (∀ m ∈ mods, m.id ≠ e.moduleId) →
      ∀ w ∈ res, e ∉ w.entries) ∧
    totalTrackedHours exEntries >
      sumBy FolderNode.totalHours
        (buildFolderTree [exFolderA] (modulesByFolderId exRes)) := by
  refine ⟨?_, ?_, ?_⟩
  · have hperm := List.filter_append_perm
      (fun e => (lookupModule mods e.moduleId).isSome) entries
    rw [show totalTrackedHours entries =
        sumBy TimeEntry.durationHours entries from rfl,
      ← sumBy_perm TimeEntry.durationHours hperm, sumBy_append]
  · rintro e hnm w hw hew
    obtain ⟨m, hm, fl, hfl, rfl⟩ :=
      forallTwo_mem_right (joinModules_ok_forall₂ hj) w hw
    have hew2 : e ∈ (entriesSorted entries).filter
        (fun x => x.moduleId == m.id) := hew
    have hbeq := List.of_mem_filter hew2
    have he : e.moduleId = m.id := by simpa using hbeq
    exact hnm m hm he.symm
  · rw [show buildFolderTree [exFolderA] (modulesByFolderId exRes) = [exNodeA] from rfl]
    rw [show exNodeA = FolderNode.node exFolderA []
        [joinOne (entriesSorted exEntries) exModuleA exFolderA]
        (sumBy ModuleWithRelations.totalHours
            [joinOne (entriesSorted exEntries) exModuleA exFolderA] +
          sumBy FolderNode.totalHours []) from rfl]
    rw [show entriesSorted exEntries =
        [⟨"e3", "m1", "R", none, 3, "2024-03-03", "c3"⟩,
          ⟨"e2", "m2", "R", none, 2, "2024-03-02", "c2"⟩,
          ⟨"e1", "m1", "R", none, 1, "2024-03-01", "c1"⟩] from rfl]
    simp [totalTrackedHours, exEntries, sumBy, joinOne, FolderNode.totalHours,
      exModuleA, List.filter, List.foldl]
    norm_num

/-- Witness for `totalTrackedHours_includes_unmatched` on the fixture
snapshot: the matched/unmatched split of the derived total. -/
theorem totalTrackedHours_includes_unmatched_witness :
    totalTrackedHours exEntries =
      sumBy TimeEntry.durationHours
        (exEntries.filter (fun e => (lookupModule [exModuleA] e.moduleId).isSome)) +
      sumBy TimeEntry.durationHours
        (exEntries.filter (fun e => !(lookupModule [exModuleA] e.moduleId).isSome)) :=
  (totalTrackedHours_includes_unmatched [exFolderA] [exModuleA] exEntries
    exRes rfl).1
